import Mathlib

/-!
# Unscented Kalman filter (`src/ukf.cpp`): embedding and verified properties

The C++ class `UKF` is embedded as a record `UKF F` over an ordered field `F`
together with pure functions that pass the record explicitly.

Conventions of the embedding.

* `double` (and the single `float dt`) are read as elements of a linearly
  ordered field `F`; every theorem about real-number facts takes `F = ℝ`.
  Rounding is not modelled.
* The routines the source calls but does not define (`cos`, `sin`, `sqrt`,
  `atan2`, the constant `M_PI`, Eigen's `llt().matrixL()` and `inverse()`)
  are the fields of `Env F`.  Whatever a theorem needs of them is an explicit
  hypothesis of that theorem.
* Division is the total field division in the main definitions;
  `predictColumnChecked` and `measureColumnChecked` repeat the two loop bodies
  that divide, with the division failing on a zero divisor, for the claims
  about division by zero.
* The two normalisation loops are total functions over the exact field
  (`wrapDown`, `wrapUp`); `wrapDownFuel` and `wrapUpFuel` repeat them with a
  bound on the number of loop tests and with the machine subtraction and
  addition as parameters, for the claim about their termination.
* `VectorXd` / `MatrixXd` of a fixed size are functions on `Fin n`.
* The dimensions `n_x_ = 5`, `n_aug_ = 7` are constants, and the index types
  are `Fin 5`, `Fin 7` and `Fin 15` (`2 * n_aug_ + 1` columns): `Prediction`
  allocates its vectors with the literals `7` and `(7, 7)`.
-/

namespace Ukf

open Matrix

/-- The state dimension `n_x_ = 5` set by the constructor. -/
abbrev n_x_ : Nat := 5

/-- The augmented dimension `n_aug_ = 7` set by the constructor. -/
abbrev n_aug_ : Nat := 7

/-- The external numerical routines used by `ukf.cpp` (libm and Eigen). -/
structure Env (F : Type) [LinearOrderedField F] where
  cos : F → F
  sin : F → F
  sqrt : F → F
  atan2 : F → F → F
  M_PI : F
  M_PI_pos : 0 < M_PI
  llt : Matrix (Fin 7) (Fin 7) F → Matrix (Fin 7) (Fin 7) F
  inverse2 : Matrix (Fin 2) (Fin 2) F → Matrix (Fin 2) (Fin 2) F
  inverse3 : Matrix (Fin 3) (Fin 3) F → Matrix (Fin 3) (Fin 3) F

/-- The tag `MeasurementPackage::SensorType`. -/
inductive SensorType where
  | LASER
  | RADAR
  deriving DecidableEq, Repr

/-- The record `MeasurementPackage`.  `raw_measurements_` holds two entries
for `LASER` and three for `RADAR`; it is modelled with three slots, of which
the `LASER` code paths read the first two. -/
structure MeasurementPackage (F : Type) where
  timestamp_ : Int
  sensor_type_ : SensorType
  raw_measurements_ : Fin 3 → F

/-- The data members of class `UKF`. -/
structure UKF (F : Type) where
  is_initialized_ : Bool
  use_laser_ : Bool
  use_radar_ : Bool
  x_ : Fin 5 → F
  P_ : Matrix (Fin 5) (Fin 5) F
  Xsig_pred_ : Matrix (Fin 5) (Fin 15) F
  time_us_ : Int
  std_a_ : F
  std_yawdd_ : F
  std_laspx_ : F
  std_laspy_ : F
  std_radr_ : F
  std_radphi_ : F
  std_radrd_ : F
  weights_ : Fin 15 → F
  lambda_ : F
  NIS_radar_ : F
  NIS_laser_ : F
  H_ : Matrix (Fin 2) (Fin 5) F
  R_lidar_ : Matrix (Fin 2) (Fin 2) F
  R_radar_ : Matrix (Fin 3) (Fin 3) F

section Model

variable {F : Type} [LinearOrderedField F]

/-- The weight vector of lines 74-83 for an arbitrary augmented dimension:
entry `0` is `lambda / (lambda + n_aug)`, every other entry is
`0.5 / (n_aug + lambda)`. -/
def weights (n_aug : Nat) (lambda : F) : Fin (2 * n_aug + 1) → F :=
  fun i => if i.val = 0 then lambda / (lambda + (n_aug : F))
           else (1 / 2) / ((n_aug : F) + lambda)

/-- The constructor `UKF::UKF()`.  The argument is the object before the
constructor body runs; the members the body does not assign
(`is_initialized_` and the entries of `Xsig_pred_`) keep its values. -/
def UKF.construct (raw : UKF F) : UKF F :=
  let lambda : F := ((3 - (n_aug_ : Int) : Int) : F)
  { raw with
    use_laser_ := true
    use_radar_ := true
    std_a_ := 3 / 2
    std_yawdd_ := 3 / 5
    std_laspx_ := 15 / 100
    std_laspy_ := 15 / 100
    std_radr_ := 3 / 10
    std_radphi_ := 3 / 100
    std_radrd_ := 3 / 10
    time_us_ := 0
    NIS_radar_ := 0
    NIS_laser_ := 0
    x_ := ![1 / 10, 1 / 10, 1 / 10, 1 / 10, 1 / 100]
    P_ := !![2 / 10, 0, 0, 0, 0;
             0, 2 / 10, 0, 0, 0;
             0, 0, 2 / 10, 0, 0;
             0, 0, 0, 3 / 10, 0;
             0, 0, 0, 0, 3 / 10]
    lambda_ := lambda
    weights_ := weights n_aug_ lambda
    H_ := !![1, 0, 0, 0, 0;
             0, 1, 0, 0, 0]
    R_lidar_ := !![((15 : F) / 100) ^ 2, 0;
                   0, ((15 : F) / 100) ^ 2]
    R_radar_ := !![((3 : F) / 10) ^ 2, 0, 0;
                   0, ((3 : F) / 100) ^ 2, 0;
                   0, 0, ((3 : F) / 10) ^ 2] }

/-- An object whose members are all zero and whose flags are all false: one
possible content of the memory handed to the constructor. -/
def UKF.blank : UKF F :=
  { is_initialized_ := false, use_laser_ := false, use_radar_ := false, x_ := 0, P_ := 0,
    Xsig_pred_ := 0, time_us_ := 0, std_a_ := 0, std_yawdd_ := 0, std_laspx_ := 0,
    std_laspy_ := 0, std_radr_ := 0, std_radphi_ := 0, std_radrd_ := 0, weights_ := 0,
    lambda_ := 0, NIS_radar_ := 0, NIS_laser_ := 0, H_ := 0, R_lidar_ := 0, R_radar_ := 0 }

/-! ## Angle normalisation -/

/-- The loop `while (a > M_PI) a -= 2.*M_PI;` with `p` for `M_PI`. -/
def wrapDown [FloorRing F] (p : F) (hp : 0 < p) (a : F) : F :=
  if p < a then wrapDown p hp (a - 2 * p) else a
termination_by (Int.ceil ((a - p) / (2 * p))).toNat
decreasing_by
  have h2 : 0 < 2 * p := by linarith
  have hq : 0 < (a - p) / (2 * p) := div_pos (by linarith) h2
  have he : (a - 2 * p - p) / (2 * p) = (a - p) / (2 * p) - 1 := by
    field_simp
    ring
  rw [he, Int.ceil_sub_one]
  have := Int.ceil_pos.mpr hq
  omega

/-- The loop `while (a < -M_PI) a += 2.*M_PI;` with `p` for `M_PI`. -/
def wrapUp [FloorRing F] (p : F) (hp : 0 < p) (a : F) : F :=
  if a < -p then wrapUp p hp (a + 2 * p) else a
termination_by (Int.ceil ((-p - a) / (2 * p))).toNat
decreasing_by
  have h2 : 0 < 2 * p := by linarith
  have hq : 0 < (-p - a) / (2 * p) := div_pos (by linarith) h2
  have he : (-p - (a + 2 * p)) / (2 * p) = (-p - a) / (2 * p) - 1 := by
    field_simp
    ring
  rw [he, Int.ceil_sub_one]
  have := Int.ceil_pos.mpr hq
  omega

/-- The two normalisation loops in sequence, as they stand after every
angular difference in the source. -/
def normalize [FloorRing F] (E : Env F) (a : F) : F :=
  wrapUp E.M_PI E.M_PI_pos (wrapDown E.M_PI E.M_PI_pos a)

/-! ## Prediction -/

/-- The augmented mean of lines 169-171: `x_` followed by two zeros. -/
def x_aug (s : UKF F) : Fin 7 → F :=
  fun i => if h : i.val < n_x_ then s.x_ ⟨i.val, h⟩ else 0

/-- The augmented covariance of lines 173-177: `P_` in the top left corner,
`std_a_^2` and `std_yawdd_^2` on the last two diagonal places, zero
elsewhere. -/
def P_aug (s : UKF F) : Matrix (Fin 7) (Fin 7) F :=
  Matrix.of fun i j =>
    if h : i.val < n_x_ ∧ j.val < n_x_ then s.P_ ⟨i.val, h.1⟩ ⟨j.val, h.2⟩
    else if i.val = 5 ∧ j.val = 5 then s.std_a_ ^ 2
    else if i.val = 6 ∧ j.val = 6 then s.std_yawdd_ ^ 2
    else 0

/-- The sigma-point matrix filled by lines 183-191 from a mean `xa`, a square
root `L` and the spreading parameter: column `0` is `xa`, column `i + 1` is
`xa + sqrt(lambda + n_aug) * L.col(i)` and column `i + 1 + n_aug` is
`xa - sqrt(lambda + n_aug) * L.col(i)`. -/
def sigmaPoints (E : Env F) (lambda : F) (xa : Fin 7 → F)
    (L : Matrix (Fin 7) (Fin 7) F) : Matrix (Fin 7) (Fin 15) F :=
  Matrix.of fun r c =>
    if c.val = 0 then xa r
    else if h : c.val < n_aug_ + 1 then
      xa r + E.sqrt (lambda + (n_aug_ : F)) * L r ⟨c.val - 1, by simp only [n_aug_] at h ⊢; omega⟩
    else
      xa r - E.sqrt (lambda + (n_aug_ : F)) * L r ⟨c.val - 1 - n_aug_, by have := c.isLt; simp only [n_aug_] at h this ⊢; omega⟩

/-- The matrix `Xsig_aug` of `Prediction` (lines 169-191). -/
def Xsig_aug (E : Env F) (s : UKF F) : Matrix (Fin 7) (Fin 15) F :=
  sigmaPoints E s.lambda_ (x_aug s) (E.llt (P_aug s))

/-- The body of the loop of lines 194-234 for one augmented sigma point `c`:
the predicted five-dimensional column. -/
def predictColumn (E : Env F) (delta_t : F) (c : Fin 7 → F) : Fin 5 → F :=
  let p_x := c 0
  let p_y := c 1
  let v := c 2
  let yaw := c 3
  let yawd := c 4
  let nu_a := c 5
  let nu_yawdd := c 6
  let px_p :=
    if |yawd| > 1 / 1000 then p_x + v / yawd * (E.sin (yaw + yawd * delta_t) - E.sin yaw)
    else p_x + v * delta_t * E.cos yaw
  let py_p :=
    if |yawd| > 1 / 1000 then p_y + v / yawd * (E.cos yaw - E.cos (yaw + yawd * delta_t))
    else p_y + v * delta_t * E.sin yaw
  let v_p := v
  let yaw_p := yaw + yawd * delta_t
  let yawd_p := yawd
  let px_p := px_p + 1 / 2 * nu_a * delta_t * delta_t * E.cos yaw
  let py_p := py_p + 1 / 2 * nu_a * delta_t * delta_t * E.sin yaw
  let v_p := v_p + nu_a * delta_t
  let yaw_p := yaw_p + 1 / 2 * nu_yawdd * delta_t * delta_t
  let yawd_p := yawd_p + nu_yawdd * delta_t
  ![px_p, py_p, v_p, yaw_p, yawd_p]

/-- The loop of lines 237-240: starting from zero, add
`weights_(i) * Xsig.col(i)` for `i = 0, ..., 2 * n_aug_`. -/
def weightedMean {n : Nat} (w : Fin 15 → F) (X : Matrix (Fin n) (Fin 15) F) :
    Fin n → F :=
  (List.finRange 15).foldl (fun x i => x + w i • (fun r => X r i)) 0

/-- The state difference of lines 246-250: `Xsig_pred_.col(i) - x_` with its
heading entry (index 3) normalised. -/
def x_diff [FloorRing F] (E : Env F) (X : Matrix (Fin 5) (Fin 15) F)
    (x : Fin 5 → F) (i : Fin 15) : Fin 5 → F :=
  Function.update (fun r => X r i - x r) 3 (normalize E (X 3 i - x 3))

/-- The loop of lines 243-253: starting from zero, add
`weights_(i) * x_diff * x_diff.transpose()`. -/
def predictedCovariance [FloorRing F] (E : Env F) (w : Fin 15 → F)
    (X : Matrix (Fin 5) (Fin 15) F) (x : Fin 5 → F) :
    Matrix (Fin 5) (Fin 5) F :=
  (List.finRange 15).foldl
    (fun P i => P + Matrix.vecMulVec (w i • x_diff E X x i) (x_diff E X x i)) 0

/-- The method `UKF::Prediction(delta_t)`. -/
def Prediction [FloorRing F] (E : Env F) (s : UKF F) (delta_t : F) : UKF F :=
  let Xsig := Xsig_aug E s
  let Xsig_pred : Matrix (Fin 5) (Fin 15) F :=
    Matrix.of fun r i => predictColumn E delta_t (fun k => Xsig k i) r
  let x := weightedMean s.weights_ Xsig_pred
  let P := predictedCovariance E s.weights_ Xsig_pred x
  { s with Xsig_pred_ := Xsig_pred, x_ := x, P_ := P }

/-! ## Updates -/

/-- The innovation `y` of `UpdateLidar` (lines 263-264). -/
def lidarY (s : UKF F) (m : MeasurementPackage F) : Fin 2 → F :=
  let z_pred : Fin 2 → F := s.H_ *ᵥ s.x_
  fun i => m.raw_measurements_ (Fin.castLE (by decide) i) - z_pred i

/-- The innovation covariance `S` of `UpdateLidar` (lines 265-266). -/
def lidarS (s : UKF F) : Matrix (Fin 2) (Fin 2) F :=
  let Ht := s.H_ᵀ
  s.H_ * s.P_ * Ht + s.R_lidar_

/-- The gain `K` of `UpdateLidar` (lines 267-269). -/
def lidarK (E : Env F) (s : UKF F) : Matrix (Fin 5) (Fin 2) F :=
  let Ht := s.H_ᵀ
  let Si := E.inverse2 (lidarS s)
  let PHt := s.P_ * Ht
  PHt * Si

/-- The method `UKF::UpdateLidar(meas_package)`. -/
def UpdateLidar (E : Env F) (s : UKF F) (m : MeasurementPackage F) : UKF F :=
  let y := lidarY s m
  let Si := E.inverse2 (lidarS s)
  let K := lidarK E s
  { s with
    x_ := s.x_ + K *ᵥ y
    P_ := (1 - K * s.H_) * s.P_
    NIS_laser_ := (y ᵥ* Si) ⬝ᵥ y }

/-- The measurement model of lines 288-301 for one predicted sigma point
`c`: range, bearing and range rate. -/
def measureColumn (E : Env F) (c : Fin 5 → F) : Fin 3 → F :=
  let p_x := c 0
  let p_y := c 1
  let v := c 2
  let yaw := c 3
  let v1 := E.cos yaw * v
  let v2 := E.sin yaw * v
  let rho := E.sqrt (p_x ^ 2 + p_y ^ 2)
  ![rho, E.atan2 p_y p_x, (p_x * v1 + p_y * v2) / rho]

/-- The residual `z - z_pred` with its bearing entry (index 1) normalised. -/
def z_diff [FloorRing F] (E : Env F) (z z_pred : Fin 3 → F) : Fin 3 → F :=
  Function.update (fun r => z r - z_pred r) 1 (normalize E (z 1 - z_pred 1))

/-- The matrix `Zsig` of `UpdateRadar` (lines 285-301). -/
def Zsig (E : Env F) (s : UKF F) : Matrix (Fin 3) (Fin 15) F :=
  Matrix.of fun r i => measureColumn E (fun k => s.Xsig_pred_ k i) r

/-- The mean predicted measurement of `UpdateRadar` (lines 304-308). -/
def radarZpred (E : Env F) (s : UKF F) : Fin 3 → F :=
  weightedMean s.weights_ (Zsig E s)

/-- The measurement covariance `S` of `UpdateRadar` (lines 311-325). -/
def radarS [FloorRing F] (E : Env F) (s : UKF F) : Matrix (Fin 3) (Fin 3) F :=
  (List.finRange 15).foldl
    (fun S i =>
      S + Matrix.vecMulVec (s.weights_ i • z_diff E (fun r => Zsig E s r i) (radarZpred E s))
            (z_diff E (fun r => Zsig E s r i) (radarZpred E s))) 0
    + s.R_radar_

/-- The cross correlation `Tc` of `UpdateRadar` (lines 328-344). -/
def radarTc [FloorRing F] (E : Env F) (s : UKF F) : Matrix (Fin 5) (Fin 3) F :=
  (List.finRange 15).foldl
    (fun T i =>
      T + Matrix.vecMulVec (s.weights_ i • x_diff E s.Xsig_pred_ s.x_ i)
            (z_diff E (fun r => Zsig E s r i) (radarZpred E s))) 0

/-- The gain `K` of `UpdateRadar` (line 347). -/
def radarK [FloorRing F] (E : Env F) (s : UKF F) : Matrix (Fin 5) (Fin 3) F :=
  radarTc E s * E.inverse3 (radarS E s)

/-- The method `UKF::UpdateRadar(meas_package)`. -/
def UpdateRadar [FloorRing F] (E : Env F) (s : UKF F) (m : MeasurementPackage F) : UKF F :=
  let S := radarS E s
  let K := radarK E s
  let zd := z_diff E m.raw_measurements_ (radarZpred E s)
  { s with
    x_ := s.x_ + K *ᵥ zd
    P_ := s.P_ - K * S * Kᵀ
    NIS_radar_ := (zd ᵥ* E.inverse3 S) ⬝ᵥ zd }

/-! ## The entry point -/

/-- The state vector written by lines 116-126 from a first `RADAR`
measurement `(rho, phi, rho_dot)`. -/
def radarFirstState (E : Env F) (m : MeasurementPackage F) : Fin 5 → F :=
  let x := m.raw_measurements_ 0 * E.cos (m.raw_measurements_ 1)
  let y := m.raw_measurements_ 0 * E.sin (m.raw_measurements_ 1)
  let vx := m.raw_measurements_ 2 * E.cos (m.raw_measurements_ 1)
  let vy := m.raw_measurements_ 2 * E.sin (m.raw_measurements_ 1)
  let x3 := if |vx| < 1 / 10000 then E.atan2 vx vy else 1 / 10
  ![x, y, E.sqrt (vx ^ 2 + vy ^ 2), x3, 1 / 100]

/-- The assignments to `x_` of lines 112-131, made for a first measurement
whose two leading components are nonzero. -/
def firstMeasurement (E : Env F) (s : UKF F) (m : MeasurementPackage F) : UKF F :=
  if m.sensor_type_ = SensorType.RADAR ∧ s.use_radar_ = true then
    { s with x_ := radarFirstState E m }
  else if m.sensor_type_ = SensorType.LASER ∧ s.use_laser_ = true then
    { s with x_ := ![m.raw_measurements_ 0, m.raw_measurements_ 1, s.x_ 2, s.x_ 3, s.x_ 4] }
  else s

/-- The elapsed time of line 143, in seconds. -/
def elapsed (s : UKF F) (m : MeasurementPackage F) : F :=
  ((m.timestamp_ - s.time_us_ : Int) : F) / 1000000

/-- The method `UKF::ProcessMeasurement(meas_package)`. -/
def ProcessMeasurement [FloorRing F] (E : Env F) (s : UKF F) (m : MeasurementPackage F) :
    UKF F :=
  if s.is_initialized_ = false then
    if m.raw_measurements_ 0 ≠ 0 ∧ m.raw_measurements_ 1 ≠ 0 then
      { firstMeasurement E s m with is_initialized_ := true, time_us_ := m.timestamp_ }
    else s
  else
    let dt : F := elapsed s m
    let s1 : UKF F := { s with time_us_ := m.timestamp_ }
    let s2 := Prediction E s1 dt
    if m.sensor_type_ = SensorType.RADAR then UpdateRadar E s2 m
    else UpdateLidar E s2 m

/-! ## The divisions of the source, made explicit -/

/-- Division that fails on a zero divisor. -/
def divChecked (a b : F) : Option F :=
  if b = 0 then none else some (a / b)

/-- The position increments of the turning branch (lines 209-210):
`v / yawd * (sin(yaw + yawd * delta_t) - sin(yaw))` and
`v / yawd * (cos(yaw) - cos(yaw + yawd * delta_t))`. -/
def ctrvTurn (E : Env F) (delta_t v yaw yawd : F) : F × F :=
  (v / yawd * (E.sin (yaw + yawd * delta_t) - E.sin yaw),
   v / yawd * (E.cos yaw - E.cos (yaw + yawd * delta_t)))

/-- The position increments of the straight-line branch (lines 212-213):
`v * delta_t * cos(yaw)` and `v * delta_t * sin(yaw)`. -/
def ctrvStraight (E : Env F) (delta_t v yaw : F) : F × F :=
  (v * delta_t * E.cos yaw, v * delta_t * E.sin yaw)

/-- The body of the loop of lines 194-234 with both divisions by `yawd`
checked: `none` stands for a division by zero. -/
def predictColumnChecked (E : Env F) (delta_t : F) (c : Fin 7 → F) : Option (Fin 5 → F) :=
  let p_x := c 0
  let p_y := c 1
  let v := c 2
  let yaw := c 3
  let yawd := c 4
  let nu_a := c 5
  let nu_yawdd := c 6
  let pos : Option (F × F) :=
    if |yawd| > 1 / 1000 then
      (divChecked v yawd).bind fun qx =>
        (divChecked v yawd).bind fun qy =>
          some (p_x + qx * (E.sin (yaw + yawd * delta_t) - E.sin yaw),
                p_y + qy * (E.cos yaw - E.cos (yaw + yawd * delta_t)))
    else some (p_x + v * delta_t * E.cos yaw, p_y + v * delta_t * E.sin yaw)
  pos.map fun xy =>
    ![xy.1 + 1 / 2 * nu_a * delta_t * delta_t * E.cos yaw,
      xy.2 + 1 / 2 * nu_a * delta_t * delta_t * E.sin yaw,
      v + nu_a * delta_t,
      yaw + yawd * delta_t + 1 / 2 * nu_yawdd * delta_t * delta_t,
      yawd + nu_yawdd * delta_t]

/-- The measurement model of lines 288-301 with the division by the range
checked: `none` stands for a division by zero. -/
def measureColumnChecked (E : Env F) (c : Fin 5 → F) : Option (Fin 3 → F) :=
  let p_x := c 0
  let p_y := c 1
  let v := c 2
  let yaw := c 3
  let v1 := E.cos yaw * v
  let v2 := E.sin yaw * v
  let rho := E.sqrt (p_x ^ 2 + p_y ^ 2)
  (divChecked (p_x * v1 + p_y * v2) rho).map fun q => ![rho, E.atan2 p_y p_x, q]

/-! ## The normalisation loops with bounded fuel and machine arithmetic -/

/-- The loop `while (a > M_PI) a -= 2.*M_PI;` run for at most `fuel` loop
tests, with `p` for `M_PI` and the machine subtraction `sub` as a parameter;
`none` means that the loop has not exited within the fuel. -/
def wrapDownFuel (sub : F → F → F) (p : F) : Nat → F → Option F
  | 0, _ => none
  | fuel + 1, a => if p < a then wrapDownFuel sub p fuel (sub a (2 * p)) else some a

/-- The loop `while (a < -M_PI) a += 2.*M_PI;` run for at most `fuel` loop
tests, with `p` for `M_PI` and the machine addition `add` as a parameter;
`none` means that the loop has not exited within the fuel. -/
def wrapUpFuel (add : F → F → F) (p : F) : Nat → F → Option F
  | 0, _ => none
  | fuel + 1, a => if a < -p then wrapUpFuel add p fuel (add a (2 * p)) else some a

/-- The two loops in sequence, each with at most `fuel` loop tests. -/
def normalizeFuel (sub add : F → F → F) (p : F) (fuel : Nat) (a : F) : Option F :=
  (wrapDownFuel sub p fuel a).bind (wrapUpFuel add p fuel)

end Model

/-! ## Auxiliary facts -/

section Aux

variable {F : Type} [LinearOrderedField F]

/-- A left fold that adds `f i` at each step is the sum of the `f i`. -/
theorem foldl_add_eq_sum {M : Type} [AddCommMonoid M] {n : Nat} (f : Fin n → M) :
    (List.finRange n).foldl (fun x i => x + f i) 0 = ∑ i, f i := by
  have key : ∀ (l : List (Fin n)) (a : M),
      l.foldl (fun x i => x + f i) a = a + (l.map f).sum := by
    intro l
    induction l with
    | nil => intro a; simp
    | cons b t ih => intro a; simp [ih, add_assoc]
  rw [key, zero_add, Fin.sum_univ_def]

/-- A sum over the sigma-point columns, split as in the generating loop. -/
theorem sum_sig {M : Type} [AddCommMonoid M] (f : Fin 15 → M) :
    ∑ c, f c = f 0
      + ∑ k : Fin 7, (f ⟨k.val + 1, by omega⟩ + f ⟨k.val + 1 + 7, by omega⟩) := by
  rw [Fin.sum_univ_succ]
  congr 1
  have h := Fin.sum_univ_add (fun i : Fin (7 + 7) => f i.succ)
  rw [Finset.sum_add_distrib]
  refine h.trans ?_
  congr 1

/-- Entry `0` of the weight vector. -/
theorem weights_zero (n_aug : Nat) (lambda : F) :
    weights n_aug lambda 0 = lambda / (lambda + (n_aug : F)) := by
  simp [weights]

/-- Every entry of the weight vector after the first. -/
theorem weights_pos (n_aug : Nat) (lambda : F) (i : Fin (2 * n_aug + 1)) (h : i.val ≠ 0) :
    weights n_aug lambda i = (1 / 2) / ((n_aug : F) + lambda) := by
  simp [weights, h]

/-- The weights of any augmented dimension add up to one. -/
theorem weights_sum (n_aug : Nat) (lambda : F) (h : lambda + (n_aug : F) ≠ 0) :
    ∑ i, weights n_aug lambda i = 1 := by
  have h2 : (n_aug : F) + lambda ≠ 0 := by rwa [add_comm]
  rw [Fin.sum_univ_succ, weights_zero]
  have : ∀ i : Fin (2 * n_aug), weights n_aug lambda i.succ = (1 / 2) / ((n_aug : F) + lambda) :=
    fun i => weights_pos n_aug lambda i.succ (by simp)
  simp only [this, Finset.sum_const, Finset.card_univ, Fintype.card_fin, nsmul_eq_mul]
  push_cast
  field_simp
  ring

/-- The spreading parameter set by the constructor is `-4`. -/
theorem construct_lambda (raw : UKF F) : (UKF.construct raw).lambda_ = -4 := by
  simp [UKF.construct]

/-- The weight vector set by the constructor. -/
theorem construct_weights (raw : UKF F) :
    (UKF.construct raw).weights_ = weights n_aug_ (-4) := by
  have h : (((3 - (n_aug_ : Int) : Int)) : F) = -4 := by norm_num
  simp only [UKF.construct, h]

/-- Column `0` of the sigma-point matrix is the mean. -/
theorem sigmaPoints_zero (E : Env F) (l : F) (xa : Fin 7 → F)
    (L : Matrix (Fin 7) (Fin 7) F) (r : Fin 7) :
    sigmaPoints E l xa L r 0 = xa r := by
  simp [sigmaPoints]

/-- Column `k + 1` of the sigma-point matrix. -/
theorem sigmaPoints_plus (E : Env F) (l : F) (xa : Fin 7 → F)
    (L : Matrix (Fin 7) (Fin 7) F) (r : Fin 7) (k : Fin 7) :
    sigmaPoints E l xa L r ⟨k.val + 1, by omega⟩ = xa r + E.sqrt (l + 7) * L r k := by
  have hk := k.isLt
  simp [sigmaPoints, hk]

/-- Column `k + 1 + n_aug_` of the sigma-point matrix. -/
theorem sigmaPoints_minus (E : Env F) (l : F) (xa : Fin 7 → F)
    (L : Matrix (Fin 7) (Fin 7) F) (r : Fin 7) (k : Fin 7) :
    sigmaPoints E l xa L r ⟨k.val + 1 + 7, by omega⟩ = xa r - E.sqrt (l + 7) * L r k := by
  simp [sigmaPoints]

/-- The weighted mean, entry by entry, as a sum. -/
theorem weightedMean_apply {n : Nat} (w : Fin 15 → F) (X : Matrix (Fin n) (Fin 15) F)
    (r : Fin n) : weightedMean w X r = ∑ c, w c * X r c := by
  unfold weightedMean
  rw [foldl_add_eq_sum, Finset.sum_apply]
  simp

/-- A weighted sum over the sigma-point columns with the constructor's
weights, split into the centre column and the symmetric pairs. -/
theorem weights_sum_sig (l : F) (g : Fin 15 → F) :
    ∑ c : Fin 15, weights n_aug_ l c * g c = l / (l + 7) * g 0
      + (1 / 2) / (7 + l) * ∑ k : Fin 7, (g ⟨k.val + 1, by omega⟩ + g ⟨k.val + 1 + 7, by omega⟩) := by
  have h0 : weights n_aug_ l (0 : Fin 15) = l / (l + 7) := by
    rw [weights_zero]; norm_num
  have h1 : ∀ c : Fin 15, c.val ≠ 0 → weights n_aug_ l c = (1 / 2) / (7 + l) := by
    intro c hc
    rw [weights_pos n_aug_ l c hc]; norm_num
  rw [sum_sig, Finset.mul_sum, h0]
  congr 1
  refine Finset.sum_congr rfl fun k _ => ?_
  rw [h1 _ (by simp), h1 _ (by simp)]
  ring

/-- First moment of the sigma points: with the constructor's weights the
weighted sum of any row of the sigma-point matrix is the mean entry, whatever
the spreading factor and the square root. -/
theorem sigma_first_moment (E : Env F) (l : F) (hl : l + 7 ≠ 0) (l' : F) (xa : Fin 7 → F)
    (L : Matrix (Fin 7) (Fin 7) F) (r : Fin 7) :
    ∑ c : Fin 15, weights n_aug_ l c * sigmaPoints E l' xa L r c = xa r := by
  rw [weights_sum_sig]
  simp only [sigmaPoints_zero, sigmaPoints_plus, sigmaPoints_minus]
  have h : ∀ k : Fin 7, xa r + E.sqrt (l' + 7) * L r k + (xa r - E.sqrt (l' + 7) * L r k)
      = 2 * xa r := fun k => by ring
  simp only [h, Finset.sum_const, Finset.card_univ, Fintype.card_fin, nsmul_eq_mul]
  have h2 : (7 : F) + l ≠ 0 := by rwa [add_comm]
  push_cast
  field_simp
  ring

/-- Second moment of the sigma points: with the constructor's weights and a
square root `q` of `l + 7`, the weighted sum of products of deviations is the
entry of `L * Lᵀ`. -/
theorem sigma_second_moment (E : Env F) (l : F) (hl : l + 7 ≠ 0)
    (hq : E.sqrt (l + 7) * E.sqrt (l + 7) = l + 7) (xa : Fin 7 → F)
    (L : Matrix (Fin 7) (Fin 7) F) (i j : Fin 7) :
    ∑ c : Fin 15, weights n_aug_ l c *
        ((sigmaPoints E l xa L i c - xa i) * (sigmaPoints E l xa L j c - xa j))
      = (L * Lᵀ) i j := by
  rw [weights_sum_sig]
  simp only [sigmaPoints_zero, sigmaPoints_plus, sigmaPoints_minus]
  have h : ∀ k : Fin 7,
      (xa i + E.sqrt (l + 7) * L i k - xa i) * (xa j + E.sqrt (l + 7) * L j k - xa j)
        + (xa i - E.sqrt (l + 7) * L i k - xa i) * (xa j - E.sqrt (l + 7) * L j k - xa j)
      = 2 * (l + 7) * (L i k * L j k) := fun k => by
    linear_combination (2 * (L i k * L j k)) * hq
  simp only [h, ← Finset.mul_sum, Matrix.mul_apply, Matrix.transpose_apply]
  have h2 : (7 : F) + l ≠ 0 := by rwa [add_comm]
  field_simp
  ring

/-- The entry point on an uninitialized filter and a usable measurement. -/
theorem ProcessMeasurement_first [FloorRing F] (E : Env F) (s : UKF F)
    (m : MeasurementPackage F) (hs : s.is_initialized_ = false)
    (h : m.raw_measurements_ 0 ≠ 0 ∧ m.raw_measurements_ 1 ≠ 0) :
    ProcessMeasurement E s m =
      { firstMeasurement E s m with is_initialized_ := true, time_us_ := m.timestamp_ } := by
  unfold ProcessMeasurement
  rw [if_pos hs, if_pos h]

/-- The entry point on an uninitialized filter and a measurement with a zero
leading component. -/
theorem ProcessMeasurement_stall [FloorRing F] (E : Env F) (s : UKF F)
    (m : MeasurementPackage F) (hs : s.is_initialized_ = false)
    (h : ¬ (m.raw_measurements_ 0 ≠ 0 ∧ m.raw_measurements_ 1 ≠ 0)) :
    ProcessMeasurement E s m = s := by
  unfold ProcessMeasurement
  rw [if_pos hs, if_neg h]

/-- The entry point on an initialized filter: prediction over the elapsed
time, then the update selected by the sensor tag alone. -/
theorem ProcessMeasurement_initialized [FloorRing F] (E : Env F) (s : UKF F)
    (m : MeasurementPackage F) (hs : s.is_initialized_ = true) :
    ProcessMeasurement E s m =
      if m.sensor_type_ = SensorType.RADAR then
        UpdateRadar E (Prediction E ({ s with time_us_ := m.timestamp_ } : UKF F) (elapsed s m)) m
      else UpdateLidar E (Prediction E ({ s with time_us_ := m.timestamp_ } : UKF F) (elapsed s m)) m := by
  unfold ProcessMeasurement
  rw [if_neg (by simp [hs])]

/-- The first-measurement assignments for a `LASER` package with the laser
enabled. -/
theorem firstMeasurement_laser (E : Env F) (s : UKF F) (m : MeasurementPackage F)
    (hm : m.sensor_type_ = SensorType.LASER) (hl : s.use_laser_ = true) :
    firstMeasurement E s m =
      { s with x_ := ![m.raw_measurements_ 0, m.raw_measurements_ 1,
                       s.x_ 2, s.x_ 3, s.x_ 4] } := by
  unfold firstMeasurement
  rw [if_neg (by simp [hm]), if_pos ⟨hm, hl⟩]

/-- The first-measurement assignments for a `RADAR` package with the radar
enabled. -/
theorem firstMeasurement_radar (E : Env F) (s : UKF F) (m : MeasurementPackage F)
    (hm : m.sensor_type_ = SensorType.RADAR) (hr : s.use_radar_ = true) :
    firstMeasurement E s m = { s with x_ := radarFirstState E m } := by
  unfold firstMeasurement
  rw [if_pos ⟨hm, hr⟩]

/-- The first-measurement assignments when the package's sensor is disabled:
nothing is assigned. -/
theorem firstMeasurement_disabled (E : Env F) (s : UKF F) (m : MeasurementPackage F)
    (h : (m.sensor_type_ = SensorType.RADAR ∧ s.use_radar_ = false) ∨
         (m.sensor_type_ = SensorType.LASER ∧ s.use_laser_ = false)) :
    firstMeasurement E s m = s := by
  unfold firstMeasurement
  rcases h with ⟨hm, hf⟩ | ⟨hm, hf⟩
  · rw [if_neg (by simp [hf]), if_neg (by simp [hm])]
  · rw [if_neg (by simp [hm]), if_neg (by simp [hf])]

/-- A left fold that accumulates weighted outer products, entry by entry. -/
theorem foldl_vecMulVec_apply {m n : Nat} (w : Fin 15 → F) (a : Fin 15 → Fin m → F)
    (b : Fin 15 → Fin n → F) (i : Fin m) (j : Fin n) :
    (List.finRange 15).foldl (fun P c => P + Matrix.vecMulVec (w c • a c) (b c))
        (0 : Matrix (Fin m) (Fin n) F) i j
      = ∑ c, w c * a c i * b c j := by
  rw [foldl_add_eq_sum (fun c => Matrix.vecMulVec (w c • a c) (b c)), Matrix.sum_apply]
  simp [Matrix.vecMulVec_apply]

/-- The predicted covariance, entry by entry, as a sum. -/
theorem predictedCovariance_apply [FloorRing F] (E : Env F) (w : Fin 15 → F)
    (X : Matrix (Fin 5) (Fin 15) F) (x : Fin 5 → F) (i j : Fin 5) :
    predictedCovariance E w X x i j = ∑ c, w c * x_diff E X x c i * x_diff E X x c j := by
  unfold predictedCovariance
  exact foldl_vecMulVec_apply w (fun c => x_diff E X x c) (fun c => x_diff E X x c) i j

/-- A fold of weighted outer products of a vector with itself is symmetric. -/
theorem foldl_vecMulVec_isSymm {n : Nat} (w : Fin 15 → F) (a : Fin 15 → Fin n → F) :
    ((List.finRange 15).foldl (fun P c => P + Matrix.vecMulVec (w c • a c) (a c))
        (0 : Matrix (Fin n) (Fin n) F)).IsSymm := by
  ext i j
  rw [Matrix.transpose_apply, foldl_vecMulVec_apply, foldl_vecMulVec_apply]
  exact Finset.sum_congr rfl fun c _ => by ring

/-- A right inverse of a symmetric square matrix is symmetric. -/
theorem isSymm_of_mul_eq_one {n : Nat} (S Si : Matrix (Fin n) (Fin n) F) (hS : S.IsSymm)
    (h : S * Si = 1) : Si.IsSymm := by
  have h1 : Siᵀ * S = 1 := by
    have := congrArg Matrix.transpose h
    rwa [Matrix.transpose_mul, Matrix.transpose_one, hS.eq] at this
  show Siᵀ = Si
  calc Siᵀ = Siᵀ * (S * Si) := by rw [h, Matrix.mul_one]
    _ = (Siᵀ * S) * Si := by rw [Matrix.mul_assoc]
    _ = Si := by rw [h1, Matrix.one_mul]

/-- The covariance left by `UpdateLidar`, written out. -/
theorem UpdateLidar_P (E : Env F) (s : UKF F) (m : MeasurementPackage F) :
    (UpdateLidar E s m).P_
      = s.P_ - s.P_ * s.H_ᵀ * E.inverse2 (lidarS s) * s.H_ * s.P_ := by
  simp only [UpdateLidar, lidarK, Matrix.sub_mul, Matrix.one_mul]

/-- The innovation covariance of `UpdateLidar` is symmetric when the prior
and the measurement noise are. -/
theorem lidarS_isSymm (s : UKF F) (hP : s.P_.IsSymm) (hR : s.R_lidar_.IsSymm) :
    (lidarS s).IsSymm := by
  show (s.H_ * s.P_ * s.H_ᵀ + s.R_lidar_)ᵀ = s.H_ * s.P_ * s.H_ᵀ + s.R_lidar_
  rw [Matrix.transpose_add, Matrix.transpose_mul, Matrix.transpose_mul,
    Matrix.transpose_transpose, hP.eq, hR.eq, Matrix.mul_assoc]

/-- The covariance left by `UpdateLidar` is symmetric when the prior and the
measurement noise are and the inverse is a right inverse. -/
theorem UpdateLidar_isSymm (E : Env F) (s : UKF F) (m : MeasurementPackage F)
    (hP : s.P_.IsSymm) (hR : s.R_lidar_.IsSymm)
    (hS : lidarS s * E.inverse2 (lidarS s) = 1) : (UpdateLidar E s m).P_.IsSymm := by
  have hSi := isSymm_of_mul_eq_one _ _ (lidarS_isSymm s hP hR) hS
  rw [UpdateLidar_P]
  show (s.P_ - s.P_ * s.H_ᵀ * E.inverse2 (lidarS s) * s.H_ * s.P_)ᵀ = _
  rw [Matrix.transpose_sub, Matrix.transpose_mul, Matrix.transpose_mul, Matrix.transpose_mul,
    Matrix.transpose_mul, Matrix.transpose_transpose, hP.eq, hSi.eq]
  simp only [Matrix.mul_assoc]

/-- The measurement covariance of `UpdateRadar` is symmetric when the
measurement noise is. -/
theorem radarS_isSymm [FloorRing F] (E : Env F) (s : UKF F) (hR : s.R_radar_.IsSymm) :
    (radarS E s).IsSymm := by
  unfold radarS
  exact Matrix.IsSymm.add (foldl_vecMulVec_isSymm _ _) hR

/-- The covariance left by `UpdateRadar` is symmetric when the prior and the
measurement noise are. -/
theorem UpdateRadar_isSymm [FloorRing F] (E : Env F) (s : UKF F) (m : MeasurementPackage F)
    (hP : s.P_.IsSymm) (hR : s.R_radar_.IsSymm) : (UpdateRadar E s m).P_.IsSymm := by
  show (s.P_ - radarK E s * radarS E s * (radarK E s)ᵀ)ᵀ = _
  rw [Matrix.transpose_sub, Matrix.transpose_mul, Matrix.transpose_mul,
    Matrix.transpose_transpose, hP.eq, (radarS_isSymm E s hR).eq, ← Matrix.mul_assoc]
  rfl

/-- The covariance produced by `Prediction` is symmetric. -/
theorem Prediction_isSymm [FloorRing F] (E : Env F) (s : UKF F) (delta_t : F) :
    (Prediction E s delta_t).P_.IsSymm := by
  simp only [Prediction, predictedCovariance]
  exact foldl_vecMulVec_isSymm _ _

/-- The constructor's covariance is symmetric. -/
theorem construct_P_isSymm (raw : UKF F) : (UKF.construct raw).P_.IsSymm := by
  ext i j
  fin_cases i <;> fin_cases j <;> rfl

/-- The constructor's lidar noise covariance is symmetric. -/
theorem construct_R_lidar_isSymm (raw : UKF F) : (UKF.construct raw).R_lidar_.IsSymm := by
  ext i j
  fin_cases i <;> fin_cases j <;> rfl

/-- The constructor's radar noise covariance is symmetric. -/
theorem construct_R_radar_isSymm (raw : UKF F) : (UKF.construct raw).R_radar_.IsSymm := by
  ext i j
  fin_cases i <;> fin_cases j <;> rfl

/-- The innovation covariance of `UpdateLidar` on the constructed filter. -/
theorem construct_lidarS (raw : UKF F) :
    lidarS (UKF.construct raw) = !![89 / 400, 0; 0, 89 / 400] := by
  ext i j
  fin_cases i <;> fin_cases j <;>
    simp [lidarS, UKF.construct, Matrix.mul_apply, Fin.sum_univ_succ, Matrix.vecHead,
      Matrix.vecTail] <;> norm_num

/-- The first five entries of the augmented mean are the state. -/
theorem x_aug_state (s : UKF F) (i : Fin 5) : x_aug s (Fin.castLE (by decide) i) = s.x_ i := by
  have h : (Fin.castLE (by decide : 5 ≤ 7) i).val < n_x_ := i.isLt
  simp only [x_aug, dif_pos h]
  rfl

/-- The noise entries of the augmented mean are zero. -/
theorem x_aug_noise (s : UKF F) : x_aug s 5 = 0 ∧ x_aug s 6 = 0 := ⟨rfl, rfl⟩

/-- The mean produced by `Prediction`, entry by entry, as a sum. -/
theorem Prediction_x_apply [FloorRing F] (E : Env F) (s : UKF F) (delta_t : F) (r : Fin 5) :
    (Prediction E s delta_t).x_ r
      = ∑ c, s.weights_ c * predictColumn E delta_t (fun k => Xsig_aug E s k c) r := by
  simp only [Prediction]
  rw [weightedMean_apply]
  rfl

/-- The predicted heading of one sigma point. -/
theorem predictColumn_three (E : Env F) (delta_t : F) (c : Fin 7 → F) :
    predictColumn E delta_t c 3 = c 3 + c 4 * delta_t + 1 / 2 * c 6 * delta_t * delta_t := by
  simp [predictColumn]

/-- The heading after `Prediction` is the heading advanced by the turn rate:
no wrap is applied to it. -/
theorem Prediction_heading [FloorRing F] (E : Env F) (s : UKF F) (delta_t : F)
    (hw : s.weights_ = weights n_aug_ (-4)) :
    (Prediction E s delta_t).x_ 3 = s.x_ 3 + s.x_ 4 * delta_t := by
  have hl : (-4 : F) + 7 ≠ 0 := by norm_num
  rw [Prediction_x_apply, hw]
  simp only [predictColumn_three, mul_add, Finset.sum_add_distrib]
  have e3 := sigma_first_moment E (-4) hl s.lambda_ (x_aug s) (E.llt (P_aug s)) 3
  have e4 := sigma_first_moment E (-4) hl s.lambda_ (x_aug s) (E.llt (P_aug s)) 4
  have e6 := sigma_first_moment E (-4) hl s.lambda_ (x_aug s) (E.llt (P_aug s)) 6
  have r4 : ∑ c : Fin 15, weights n_aug_ (-4) c * (Xsig_aug E s 4 c * delta_t)
      = (∑ c : Fin 15, weights n_aug_ (-4) c * Xsig_aug E s 4 c) * delta_t := by
    rw [Finset.sum_mul]; exact Finset.sum_congr rfl fun c _ => by ring
  have r6 : ∑ c : Fin 15, weights n_aug_ (-4) c * (1 / 2 * Xsig_aug E s 6 c * delta_t * delta_t)
      = 1 / 2 * (∑ c : Fin 15, weights n_aug_ (-4) c * Xsig_aug E s 6 c) * delta_t * delta_t := by
    rw [Finset.mul_sum, Finset.sum_mul, Finset.sum_mul]
    exact Finset.sum_congr rfl fun c _ => by ring
  rw [r4, r6]
  unfold Xsig_aug
  rw [e3, e4, e6, (x_aug_noise s).2]
  have h3 := x_aug_state s 3
  have h4 := x_aug_state s 4
  rw [show x_aug s 3 = s.x_ 3 from h3, show x_aug s 4 = s.x_ 4 from h4]
  ring

/-- The augmented mean, written out. -/
theorem x_aug_eq (s : UKF F) :
    x_aug s = ![s.x_ 0, s.x_ 1, s.x_ 2, s.x_ 3, s.x_ 4, 0, 0] := by
  funext i
  fin_cases i <;> rfl

/-- The predicted position of a sigma-point pair cancels around a mean that
sits at the origin with zero speed, when the square root is diagonal. -/
theorem predictColumn_pair_cancel (E : Env F) (delta_t q x3 x4 : F) (d : Fin 7 → F)
    (k : Fin 7) (r : Fin 5) (hr : r = 0 ∨ r = 1) :
    predictColumn E delta_t
        (fun i => ![0, 0, 0, x3, x4, 0, 0] i + q * Matrix.diagonal d i k) r
      + predictColumn E delta_t
        (fun i => ![0, 0, 0, x3, x4, 0, 0] i - q * Matrix.diagonal d i k) r = 0 := by
  have h5 : (![0, 0, 0, x3, x4, 0, 0] : Fin 7 → F) 5 = 0 := rfl
  have h6 : (![0, 0, 0, x3, x4, 0, 0] : Fin 7 → F) 6 = 0 := rfl
  rcases hr with rfl | rfl <;> fin_cases k <;>
    simp [predictColumn, Matrix.diagonal_apply, h5, h6] <;> (try split_ifs) <;> (try ring)

/-- The predicted position stays at the origin for a mean at the origin with
zero speed, when the square root of the augmented covariance is diagonal. -/
theorem Prediction_position_origin [FloorRing F] (E : Env F) (s : UKF F) (delta_t : F)
    (d : Fin 7 → F) (hw : s.weights_ = weights n_aug_ (-4))
    (hL : E.llt (P_aug s) = Matrix.diagonal d)
    (h0 : s.x_ 0 = 0) (h1 : s.x_ 1 = 0) (h2 : s.x_ 2 = 0) (r : Fin 5) (hr : r = 0 ∨ r = 1) :
    (Prediction E s delta_t).x_ r = 0 := by
  have hxa : x_aug s = ![0, 0, 0, s.x_ 3, s.x_ 4, 0, 0] := by
    rw [x_aug_eq, h0, h1, h2]
  have hc : predictColumn E delta_t (fun k => Xsig_aug E s k 0) r = 0 := by
    have e : (fun k => Xsig_aug E s k 0) = ![0, 0, 0, s.x_ 3, s.x_ 4, 0, 0] := by
      rw [← hxa]; funext k; exact sigmaPoints_zero E _ _ _ k
    rw [e]
    have h5 : (![0, 0, 0, s.x_ 3, s.x_ 4, 0, 0] : Fin 7 → F) 5 = 0 := rfl
    rcases hr with rfl | rfl <;> simp [predictColumn, h5]
  have hp : ∀ k : Fin 7,
      predictColumn E delta_t (fun i => Xsig_aug E s i ⟨k.val + 1, by omega⟩) r
        + predictColumn E delta_t (fun i => Xsig_aug E s i ⟨k.val + 1 + 7, by omega⟩) r = 0 := by
    intro k
    have e1 : (fun i => Xsig_aug E s i ⟨k.val + 1, by omega⟩)
        = fun i => ![0, 0, 0, s.x_ 3, s.x_ 4, 0, 0] i
            + E.sqrt (s.lambda_ + 7) * Matrix.diagonal d i k := by
      funext i
      rw [← hxa, ← hL]
      exact sigmaPoints_plus E _ _ _ i k
    have e2 : (fun i => Xsig_aug E s i ⟨k.val + 1 + 7, by omega⟩)
        = fun i => ![0, 0, 0, s.x_ 3, s.x_ 4, 0, 0] i
            - E.sqrt (s.lambda_ + 7) * Matrix.diagonal d i k := by
      funext i
      rw [← hxa, ← hL]
      exact sigmaPoints_minus E _ _ _ i k
    rw [e1, e2]
    exact predictColumn_pair_cancel E delta_t _ _ _ d k r hr
  rw [Prediction_x_apply, hw,
    weights_sum_sig (-4) (fun c => predictColumn E delta_t (fun k => Xsig_aug E s k c) r)]
  simp only [hc, hp, Finset.sum_const_zero, mul_zero, add_zero]

/-- The innovation of `UpdateLidar` with the constructor's `H_`: measured
minus estimated position. -/
theorem lidarY_eq (s : UKF F) (m : MeasurementPackage F)
    (hH : s.H_ = !![1, 0, 0, 0, 0; 0, 1, 0, 0, 0]) :
    lidarY s m = ![m.raw_measurements_ 0 - s.x_ 0, m.raw_measurements_ 1 - s.x_ 1] := by
  funext i
  fin_cases i
  · simp [lidarY, hH, Matrix.mulVec, Matrix.dotProduct, Fin.sum_univ_succ, Matrix.vecHead]
  · simp [lidarY, hH, Matrix.mulVec, Matrix.dotProduct, Fin.sum_univ_succ, Matrix.vecHead,
      Matrix.vecTail]
    rfl

/-- With a zero innovation `UpdateLidar` leaves the mean unchanged. -/
theorem UpdateLidar_x_of_innovation_zero (E : Env F) (s : UKF F) (m : MeasurementPackage F)
    (hy : lidarY s m = 0) : (UpdateLidar E s m).x_ = s.x_ := by
  simp only [UpdateLidar, hy, Matrix.mulVec_zero, add_zero]

/-- The top left corner of the augmented covariance is the state
covariance. -/
theorem P_aug_state (s : UKF F) (i j : Fin 5) :
    P_aug s (Fin.castLE (by decide) i) (Fin.castLE (by decide) j) = s.P_ i j := by
  have h : (Fin.castLE (by decide : 5 ≤ 7) i).val < n_x_ ∧
      (Fin.castLE (by decide : 5 ≤ 7) j).val < n_x_ := ⟨i.isLt, j.isLt⟩
  simp only [P_aug, Matrix.of_apply, dif_pos h]
  rfl

/-- Over zero elapsed time a sigma point is predicted onto its own first five
entries. -/
theorem predictColumn_zero (E : Env F) (c : Fin 7 → F) (r : Fin 5) :
    predictColumn E 0 c r = c (Fin.castLE (by decide) r) := by
  fin_cases r <;> simp [predictColumn] <;> rfl

/-- The sigma points stored by `Prediction(0)` are the first five rows of the
augmented sigma points. -/
theorem Prediction_zero_Xsig [FloorRing F] (E : Env F) (s : UKF F) (r : Fin 5) (c : Fin 15) :
    (Prediction E s 0).Xsig_pred_ r c = Xsig_aug E s (Fin.castLE (by decide) r) c := by
  simp only [Prediction, Matrix.of_apply]
  exact predictColumn_zero E _ r

/-- `Prediction(0)` leaves the mean unchanged. -/
theorem Prediction_zero_x [FloorRing F] (E : Env F) (s : UKF F)
    (hw : s.weights_ = weights n_aug_ (-4)) : (Prediction E s 0).x_ = s.x_ := by
  funext r
  rw [Prediction_x_apply, hw]
  simp only [predictColumn_zero]
  unfold Xsig_aug
  rw [sigma_first_moment E (-4) (by norm_num) s.lambda_, x_aug_state]

/-- `Prediction(0)` reproduces every covariance entry outside the heading row
and column, when `llt` returns a square root of the augmented covariance. -/
theorem Prediction_zero_P_apply [FloorRing F] (E : Env F) (s : UKF F)
    (hw : s.weights_ = weights n_aug_ (-4)) (hl : s.lambda_ = -4)
    (hq : E.sqrt (-4 + 7) * E.sqrt (-4 + 7) = -4 + 7)
    (hL : E.llt (P_aug s) * (E.llt (P_aug s))ᵀ = P_aug s)
    (i j : Fin 5) (hi : i ≠ 3) (hj : j ≠ 3) :
    (Prediction E s 0).P_ i j = s.P_ i j := by
  have hx := Prediction_zero_x E s hw
  have hP : (Prediction E s 0).P_
      = predictedCovariance E s.weights_ (Prediction E s 0).Xsig_pred_ (Prediction E s 0).x_ :=
    rfl
  rw [hP, predictedCovariance_apply, hx, hw]
  have hd : ∀ (c : Fin 15) (r : Fin 5), r ≠ 3 →
      x_diff E (Prediction E s 0).Xsig_pred_ s.x_ c r
        = sigmaPoints E (-4) (x_aug s) (E.llt (P_aug s)) (Fin.castLE (by decide) r) c
          - x_aug s (Fin.castLE (by decide) r) := by
    intro c r hr
    rw [x_diff, Function.update_noteq hr, Prediction_zero_Xsig, x_aug_state, Xsig_aug, hl]
  simp only [hd _ i hi, hd _ j hj, mul_assoc]
  rw [sigma_second_moment E (-4) (by norm_num) hq, hL, P_aug_state]

/-- With the constructor's `H_`, the product `P_ * H_ᵀ` keeps the first two
columns of `P_`. -/
theorem P_mul_Ht_apply (s : UKF F) (hH : s.H_ = !![1, 0, 0, 0, 0; 0, 1, 0, 0, 0])
    (i : Fin 5) (k : Fin 2) :
    (s.P_ * s.H_ᵀ) i k = s.P_ i (Fin.castLE (by decide) k) := by
  fin_cases k
  · simp [hH, Matrix.mul_apply, Fin.sum_univ_succ, Matrix.vecHead]
  · simp [hH, Matrix.mul_apply, Fin.sum_univ_succ, Matrix.vecHead, Matrix.vecTail]
    rfl

/-- With the constructor's `H_`, the innovation covariance of `UpdateLidar`
is the top left corner of `P_` plus the measurement noise. -/
theorem lidarS_apply (s : UKF F) (hH : s.H_ = !![1, 0, 0, 0, 0; 0, 1, 0, 0, 0])
    (i j : Fin 2) :
    lidarS s i j
      = s.P_ (Fin.castLE (by decide) i) (Fin.castLE (by decide) j) + s.R_lidar_ i j := by
  have h : (s.H_ * s.P_ * s.H_ᵀ) i j
      = s.P_ (Fin.castLE (by decide) i) (Fin.castLE (by decide) j) := by
    rw [Matrix.mul_assoc, Matrix.mul_apply]
    simp only [P_mul_Ht_apply s hH]
    fin_cases i
    · simp [hH, Fin.sum_univ_succ, Matrix.vecHead]
    · simp [hH, Fin.sum_univ_succ, Matrix.vecHead, Matrix.vecTail]
      rfl
  show (s.H_ * s.P_ * s.H_ᵀ + s.R_lidar_) i j = _
  rw [Matrix.add_apply, h]

/-- The mean left by `UpdateLidar`, entry by entry, with the constructor's
`H_`. -/
theorem UpdateLidar_x_apply (E : Env F) (s : UKF F) (m : MeasurementPackage F)
    (hH : s.H_ = !![1, 0, 0, 0, 0; 0, 1, 0, 0, 0]) (i : Fin 5) :
    (UpdateLidar E s m).x_ i = s.x_ i
      + ((s.P_ i 0 * E.inverse2 (lidarS s) 0 0 + s.P_ i 1 * E.inverse2 (lidarS s) 1 0)
          * (m.raw_measurements_ 0 - s.x_ 0)
        + (s.P_ i 0 * E.inverse2 (lidarS s) 0 1 + s.P_ i 1 * E.inverse2 (lidarS s) 1 1)
          * (m.raw_measurements_ 1 - s.x_ 1)) := by
  have hK : ∀ j : Fin 2, lidarK E s i j
      = s.P_ i 0 * E.inverse2 (lidarS s) 0 j + s.P_ i 1 * E.inverse2 (lidarS s) 1 j := by
    intro j
    show (s.P_ * s.H_ᵀ * E.inverse2 (lidarS s)) i j = _
    rw [Matrix.mul_apply, Fin.sum_univ_two, P_mul_Ht_apply s hH, P_mul_Ht_apply s hH]
    rfl
  show s.x_ i + (lidarK E s *ᵥ lidarY s m) i = _
  rw [lidarY_eq s m hH, Matrix.mulVec, Matrix.dotProduct, Fin.sum_univ_two, hK, hK]
  rfl

/-- The augmented covariance of the constructed filter is diagonal. -/
theorem construct_P_aug (raw : UKF F) :
    P_aug (UKF.construct raw)
      = Matrix.diagonal ![2 / 10, 2 / 10, 2 / 10, 3 / 10, 3 / 10, (3 / 2) ^ 2, (3 / 5) ^ 2] := by
  ext i j
  fin_cases i <;> fin_cases j <;> rfl

/-- The diagonal matrix of real square roots is a square root of a diagonal
matrix with non-negative entries. -/
theorem diagonal_sqrt_mul_transpose (v : Fin 7 → ℝ) (hv : ∀ i, 0 ≤ v i) :
    Matrix.diagonal (fun i => Real.sqrt (v i))
        * (Matrix.diagonal (fun i => Real.sqrt (v i)))ᵀ = Matrix.diagonal v := by
  have h : (fun i => Real.sqrt (v i) * Real.sqrt (v i)) = v :=
    funext fun i => Real.mul_self_sqrt (hv i)
  rw [Matrix.diagonal_transpose, Matrix.diagonal_mul_diagonal, h]

/-- On the constructed filter the diagonal matrix of square roots is a
square root of the augmented covariance. -/
theorem construct_diagonal_sqrt (raw : UKF ℝ) :
    Matrix.diagonal (fun i => Real.sqrt (P_aug (UKF.construct raw) i i))
        * (Matrix.diagonal (fun i => Real.sqrt (P_aug (UKF.construct raw) i i)))ᵀ
      = P_aug (UKF.construct raw) := by
  have hv : ∀ i : Fin 7, (0 : ℝ)
      ≤ ![2 / 10, 2 / 10, 2 / 10, 3 / 10, 3 / 10, (3 / 2) ^ 2, (3 / 5) ^ 2] i := by
    intro i
    fin_cases i
    · show (0 : ℝ) ≤ 2 / 10; norm_num
    · show (0 : ℝ) ≤ 2 / 10; norm_num
    · show (0 : ℝ) ≤ 2 / 10; norm_num
    · show (0 : ℝ) ≤ 3 / 10; norm_num
    · show (0 : ℝ) ≤ 3 / 10; norm_num
    · show (0 : ℝ) ≤ (3 / 2) ^ 2; norm_num
    · show (0 : ℝ) ≤ (3 / 5) ^ 2; norm_num
  rw [construct_P_aug]
  simp only [Matrix.diagonal_apply_eq]
  exact diagonal_sqrt_mul_transpose _ hv

/-! ### The normalisation loops -/

/-- The first loop does nothing at or below `M_PI`. -/
theorem wrapDown_of_le [FloorRing F] (p : F) (hp : 0 < p) (a : F) (h : a ≤ p) :
    wrapDown p hp a = a := by
  rw [wrapDown, if_neg (not_lt.mpr h)]

/-- The second loop does nothing at or above `-M_PI`. -/
theorem wrapUp_of_ge [FloorRing F] (p : F) (hp : 0 < p) (a : F) (h : -p ≤ a) :
    wrapUp p hp a = a := by
  rw [wrapUp, if_neg (not_lt.mpr h)]

/-- The first loop ends at or below `M_PI`. -/
theorem wrapDown_le [FloorRing F] (p : F) (hp : 0 < p) (a : F) : wrapDown p hp a ≤ p := by
  induction a using wrapDown.induct p hp with
  | case1 x hx ih => rw [wrapDown, if_pos hx]; exact ih
  | case2 x hx => rw [wrapDown, if_neg hx]; exact not_lt.mp hx

/-- The first loop keeps a value above `-M_PI` above `-M_PI`. -/
theorem wrapDown_lower [FloorRing F] (p : F) (hp : 0 < p) (a : F) (h : -p < a) :
    -p < wrapDown p hp a := by
  induction a using wrapDown.induct p hp with
  | case1 x hx ih => rw [wrapDown, if_pos hx]; exact ih (by linarith)
  | case2 x hx => rw [wrapDown, if_neg hx]; exact h

/-- The first loop subtracts a natural multiple of `2 * M_PI`. -/
theorem wrapDown_multiple [FloorRing F] (p : F) (hp : 0 < p) (a : F) :
    ∃ k : Nat, wrapDown p hp a = a - (k : F) * (2 * p) := by
  induction a using wrapDown.induct p hp with
  | case1 x hx ih =>
    obtain ⟨k, hk⟩ := ih
    refine ⟨k + 1, ?_⟩
    rw [wrapDown, if_pos hx, hk]
    push_cast
    ring
  | case2 x hx => exact ⟨0, by rw [wrapDown, if_neg hx]; simp⟩

/-- The second loop ends at or above `-M_PI`. -/
theorem wrapUp_ge [FloorRing F] (p : F) (hp : 0 < p) (a : F) : -p ≤ wrapUp p hp a := by
  induction a using wrapUp.induct p hp with
  | case1 x hx ih => rw [wrapUp, if_pos hx]; exact ih
  | case2 x hx => rw [wrapUp, if_neg hx]; exact not_lt.mp hx

/-- The second loop keeps a value at or below `M_PI` at or below `M_PI`. -/
theorem wrapUp_upper [FloorRing F] (p : F) (hp : 0 < p) (a : F) (h : a ≤ p) :
    wrapUp p hp a ≤ p := by
  induction a using wrapUp.induct p hp with
  | case1 x hx ih => rw [wrapUp, if_pos hx]; exact ih (by linarith)
  | case2 x hx => rw [wrapUp, if_neg hx]; exact h

/-- The second loop adds a natural multiple of `2 * M_PI`. -/
theorem wrapUp_multiple [FloorRing F] (p : F) (hp : 0 < p) (a : F) :
    ∃ k : Nat, wrapUp p hp a = a + (k : F) * (2 * p) := by
  induction a using wrapUp.induct p hp with
  | case1 x hx ih =>
    obtain ⟨k, hk⟩ := ih
    refine ⟨k + 1, ?_⟩
    rw [wrapUp, if_pos hx, hk]
    push_cast
    ring
  | case2 x hx => exact ⟨0, by rw [wrapUp, if_neg hx]; simp⟩

/-- The second loop ends exactly at `-M_PI` only from `-M_PI` minus a natural
multiple of `2 * M_PI`. -/
theorem wrapUp_eq_neg [FloorRing F] (p : F) (hp : 0 < p) (a : F)
    (h : wrapUp p hp a = -p) : ∃ k : Nat, a = -p - (k : F) * (2 * p) := by
  induction a using wrapUp.induct p hp with
  | case1 x hx ih =>
    rw [wrapUp, if_pos hx] at h
    obtain ⟨k, hk⟩ := ih h
    refine ⟨k + 1, ?_⟩
    push_cast
    linear_combination hk
  | case2 x hx =>
    rw [wrapUp, if_neg hx] at h
    exact ⟨0, by rw [h]; simp⟩

/-- The second loop started at `-M_PI` minus a natural multiple of
`2 * M_PI` ends exactly at `-M_PI`. -/
theorem wrapUp_neg_sub [FloorRing F] (p : F) (hp : 0 < p) (k : Nat) :
    wrapUp p hp (-p - (k : F) * (2 * p)) = -p := by
  induction k with
  | zero => rw [wrapUp_of_ge p hp _ (by simp)]; simp
  | succ n ih =>
    have hn : (0 : F) ≤ (n : F) := Nat.cast_nonneg n
    have hlt : -p - ((n + 1 : Nat) : F) * (2 * p) < -p := by
      push_cast
      nlinarith
    rw [wrapUp, if_pos hlt]
    have e : -p - ((n + 1 : Nat) : F) * (2 * p) + 2 * p = -p - (n : F) * (2 * p) := by
      push_cast
      ring
    rw [e, ih]

/-- The normalisation does nothing on the closed interval
`[-M_PI, M_PI]`. -/
theorem normalize_of_mem_Icc [FloorRing F] (E : Env F) (a : F)
    (h : a ∈ Set.Icc (-E.M_PI) E.M_PI) : normalize E a = a := by
  unfold normalize
  rw [wrapDown_of_le _ _ _ h.2, wrapUp_of_ge _ _ _ h.1]

/-- The normalisation ends in the closed interval `[-M_PI, M_PI]`. -/
theorem normalize_mem_Icc [FloorRing F] (E : Env F) (a : F) :
    normalize E a ∈ Set.Icc (-E.M_PI) E.M_PI :=
  ⟨wrapUp_ge _ _ _, wrapUp_upper _ _ _ (wrapDown_le _ _ _)⟩

/-- The normalisation changes its argument by an integer multiple of
`2 * M_PI`. -/
theorem normalize_multiple [FloorRing F] (E : Env F) (a : F) :
    ∃ k : Int, normalize E a = a + (k : F) * (2 * E.M_PI) := by
  obtain ⟨k1, h1⟩ := wrapDown_multiple E.M_PI E.M_PI_pos a
  obtain ⟨k2, h2⟩ := wrapUp_multiple E.M_PI E.M_PI_pos (wrapDown E.M_PI E.M_PI_pos a)
  refine ⟨(k2 : Int) - (k1 : Int), ?_⟩
  unfold normalize
  rw [h2, h1]
  push_cast
  ring

/-- The normalisation returns `-M_PI` exactly for the inputs `-M_PI` minus
a natural multiple of `2 * M_PI`. -/
theorem normalize_eq_neg_iff [FloorRing F] (E : Env F) (a : F) :
    normalize E a = -E.M_PI ↔ ∃ k : Nat, a = -E.M_PI - (k : F) * (2 * E.M_PI) := by
  have hp := E.M_PI_pos
  constructor
  · intro h
    unfold normalize at h
    by_cases ha : a ≤ E.M_PI
    · rw [wrapDown_of_le _ _ _ ha] at h
      exact wrapUp_eq_neg _ _ _ h
    · have hl : -E.M_PI < wrapDown E.M_PI E.M_PI_pos a :=
        wrapDown_lower _ _ _ (by linarith [not_le.mp ha])
      rw [wrapUp_of_ge _ _ _ hl.le] at h
      exact absurd h (ne_of_gt hl)
  · rintro ⟨k, rfl⟩
    have hk : (0 : F) ≤ (k : F) := Nat.cast_nonneg k
    unfold normalize
    rw [wrapDown_of_le _ _ _ (by nlinarith), wrapUp_neg_sub]

/-! ### The checked divisions -/

/-- A checked division by a nonzero divisor succeeds with the quotient. -/
theorem divChecked_of_ne (a b : F) (h : b ≠ 0) : divChecked a b = some (a / b) := by
  simp [divChecked, h]

/-- A checked division fails exactly on a zero divisor. -/
theorem divChecked_eq_none (a b : F) : divChecked a b = none ↔ b = 0 := by
  unfold divChecked
  split_ifs with h <;> simp [h]

/-- A turn rate that passes the guard of line 208 is not zero. -/
theorem yawd_ne_zero_of_guard (yawd : F) (h : |yawd| > 1 / 1000) : yawd ≠ 0 := by
  intro h0
  rw [h0, abs_zero] at h
  exact absurd h (by norm_num)

/-- The checked loop body never fails and returns the predicted column. -/
theorem predictColumnChecked_eq (E : Env F) (delta_t : F) (c : Fin 7 → F) :
    predictColumnChecked E delta_t c = some (predictColumn E delta_t c) := by
  by_cases h : |c 4| > 1 / 1000
  · have hd := divChecked_of_ne (c 2) (c 4) (yawd_ne_zero_of_guard _ h)
    simp only [predictColumnChecked, predictColumn, if_pos h, hd, Option.some_bind,
      Option.map_some']
  · simp only [predictColumnChecked, predictColumn, if_neg h, Option.map_some']

/-- The predicted column, written in closed form. -/
theorem predictColumn_eq (E : Env F) (delta_t : F) (c : Fin 7 → F) :
    predictColumn E delta_t c =
      ![c 0 + (if |c 4| > 1 / 1000 then
              c 2 / c 4 * (E.sin (c 3 + c 4 * delta_t) - E.sin (c 3))
            else c 2 * delta_t * E.cos (c 3))
          + 1 / 2 * c 5 * delta_t ^ 2 * E.cos (c 3),
        c 1 + (if |c 4| > 1 / 1000 then
              c 2 / c 4 * (E.cos (c 3) - E.cos (c 3 + c 4 * delta_t))
            else c 2 * delta_t * E.sin (c 3))
          + 1 / 2 * c 5 * delta_t ^ 2 * E.sin (c 3),
        c 2 + delta_t * c 5,
        c 3 + c 4 * delta_t + 1 / 2 * delta_t ^ 2 * c 6,
        c 4 + delta_t * c 6] := by
  funext r
  fin_cases r <;> simp [predictColumn] <;> (try split_ifs) <;> ring

/-- The two branches of the position update are the turning and the
straight-line increments. -/
theorem predictColumn_position (E : Env F) (delta_t : F) (c : Fin 7 → F) :
    predictColumn E delta_t c 0
        = c 0 + (if |c 4| > 1 / 1000 then (ctrvTurn E delta_t (c 2) (c 3) (c 4)).1
                 else (ctrvStraight E delta_t (c 2) (c 3)).1)
          + 1 / 2 * c 5 * delta_t * delta_t * E.cos (c 3) ∧
    predictColumn E delta_t c 1
        = c 1 + (if |c 4| > 1 / 1000 then (ctrvTurn E delta_t (c 2) (c 3) (c 4)).2
                 else (ctrvStraight E delta_t (c 2) (c 3)).2)
          + 1 / 2 * c 5 * delta_t * delta_t * E.sin (c 3) := by
  constructor <;> simp [predictColumn, ctrvTurn, ctrvStraight] <;> split_ifs <;> rfl

/-! ### The limit of the turning branch -/

/-- As the turn rate tends to zero the turning increment in `x` tends to the
straight-line increment, for the real sine and cosine. -/
theorem turn_x_tendsto (dt v yaw : ℝ) :
    Filter.Tendsto (fun w : ℝ => v / w * (Real.sin (yaw + w * dt) - Real.sin yaw))
      (nhdsWithin 0 {0}ᶜ) (nhds (v * dt * Real.cos yaw)) := by
  have hg : HasDerivAt (fun w : ℝ => yaw + w * dt) (1 * dt) 0 :=
    ((hasDerivAt_id (0 : ℝ)).mul_const dt).const_add yaw
  have hf : HasDerivAt (fun w : ℝ => Real.sin (yaw + w * dt))
      (Real.cos (yaw + 0 * dt) * (1 * dt)) 0 :=
    (Real.hasDerivAt_sin (yaw + 0 * dt)).comp 0 hg
  have ht := (hasDerivAt_iff_tendsto_slope.mp hf).const_mul v
  have e : v * (Real.cos (yaw + 0 * dt) * (1 * dt)) = v * dt * Real.cos yaw := by
    simp only [zero_mul, add_zero, one_mul]; ring
  rw [e] at ht
  refine ht.congr fun w => ?_
  simp only [slope_def_field, zero_mul, add_zero, sub_zero]
  ring

/-- As the turn rate tends to zero the turning increment in `y` tends to the
straight-line increment, for the real sine and cosine. -/
theorem turn_y_tendsto (dt v yaw : ℝ) :
    Filter.Tendsto (fun w : ℝ => v / w * (Real.cos yaw - Real.cos (yaw + w * dt)))
      (nhdsWithin 0 {0}ᶜ) (nhds (v * dt * Real.sin yaw)) := by
  have hg : HasDerivAt (fun w : ℝ => yaw + w * dt) (1 * dt) 0 :=
    ((hasDerivAt_id (0 : ℝ)).mul_const dt).const_add yaw
  have hf : HasDerivAt (fun w : ℝ => Real.cos (yaw + w * dt))
      (-Real.sin (yaw + 0 * dt) * (1 * dt)) 0 :=
    (Real.hasDerivAt_cos (yaw + 0 * dt)).comp 0 hg
  have ht := (hasDerivAt_iff_tendsto_slope.mp hf).const_mul (-v)
  have e : -v * (-Real.sin (yaw + 0 * dt) * (1 * dt)) = v * dt * Real.sin yaw := by
    simp only [zero_mul, add_zero, one_mul]; ring
  rw [e] at ht
  refine ht.congr fun w => ?_
  simp only [slope_def_field, zero_mul, add_zero, sub_zero]
  ring

/-! ### Prediction over zero elapsed time -/

/-- Every sigma-point column is the centre, a plus column or a minus
column. -/
theorem sig_cases (c : Fin 15) :
    c = 0 ∨ (∃ k : Fin 7, c = ⟨k.val + 1, by omega⟩) ∨
      ∃ k : Fin 7, c = ⟨k.val + 1 + 7, by omega⟩ := by
  have hc := c.isLt
  by_cases h0 : c.val = 0
  · exact Or.inl (Fin.ext h0)
  · by_cases h1 : c.val < 8
    · exact Or.inr (Or.inl ⟨⟨c.val - 1, by omega⟩, Fin.ext (by simp; omega)⟩)
    · exact Or.inr (Or.inr ⟨⟨c.val - 8, by omega⟩, Fin.ext (by simp; omega)⟩)

/-- The heading offset of every sigma point lies in `[-M_PI, M_PI]` when the
scaled heading row of the square root does. -/
theorem sigma_heading_offset_mem (E : Env F) (l : F) (xa : Fin 7 → F)
    (L : Matrix (Fin 7) (Fin 7) F) (hq : 0 ≤ E.sqrt (l + 7))
    (hb : ∀ k : Fin 7, E.sqrt (l + 7) * |L 3 k| ≤ E.M_PI) (c : Fin 15) :
    sigmaPoints E l xa L 3 c - xa 3 ∈ Set.Icc (-E.M_PI) E.M_PI := by
  have hp := E.M_PI_pos
  have hk : ∀ k : Fin 7, |E.sqrt (l + 7) * L 3 k| ≤ E.M_PI := fun k => by
    rw [abs_mul, abs_of_nonneg hq]; exact hb k
  rcases sig_cases c with rfl | ⟨k, rfl⟩ | ⟨k, rfl⟩
  · rw [sigmaPoints_zero, sub_self]
    exact ⟨by linarith, hp.le⟩
  · rw [sigmaPoints_plus]
    have := abs_le.mp (hk k)
    exact ⟨by linarith [this.1], by linarith [this.2]⟩
  · rw [sigmaPoints_minus]
    have := abs_le.mp (hk k)
    exact ⟨by linarith [this.2], by linarith [this.1]⟩

/-- `Prediction(0)` leaves the covariance unchanged when `llt` returns a
square root of the augmented covariance and no heading offset is wrapped. -/
theorem Prediction_zero_P [FloorRing F] (E : Env F) (s : UKF F)
    (hw : s.weights_ = weights n_aug_ (-4)) (hl : s.lambda_ = -4)
    (hq0 : 0 ≤ E.sqrt (-4 + 7))
    (hq : E.sqrt (-4 + 7) * E.sqrt (-4 + 7) = -4 + 7)
    (hL : E.llt (P_aug s) * (E.llt (P_aug s))ᵀ = P_aug s)
    (hb : ∀ k : Fin 7, E.sqrt (-4 + 7) * |E.llt (P_aug s) 3 k| ≤ E.M_PI) :
    (Prediction E s 0).P_ = s.P_ := by
  have hx := Prediction_zero_x E s hw
  have hP : (Prediction E s 0).P_
      = predictedCovariance E s.weights_ (Prediction E s 0).Xsig_pred_ (Prediction E s 0).x_ :=
    rfl
  have hd : ∀ (c : Fin 15) (r : Fin 5),
      x_diff E (Prediction E s 0).Xsig_pred_ s.x_ c r
        = sigmaPoints E (-4) (x_aug s) (E.llt (P_aug s)) (Fin.castLE (by decide) r) c
          - x_aug s (Fin.castLE (by decide) r) := by
    intro c r
    by_cases hr : r = 3
    · subst hr
      rw [x_diff, Function.update_same, Prediction_zero_Xsig, ← x_aug_state s 3, Xsig_aug, hl]
      exact normalize_of_mem_Icc E _
        (sigma_heading_offset_mem E (-4) (x_aug s) (E.llt (P_aug s)) hq0 hb c)
    · rw [x_diff, Function.update_noteq hr, Prediction_zero_Xsig, x_aug_state, Xsig_aug, hl]
  ext i j
  rw [hP, predictedCovariance_apply, hx, hw]
  simp only [hd, mul_assoc]
  rw [sigma_second_moment E (-4) (by norm_num) hq, hL, P_aug_state]

/-! ### Frame facts of the entry point on an initialized filter -/

/-- On an initialized filter the call records the measurement timestamp. -/
theorem ProcessMeasurement_time [FloorRing F] (E : Env F) (s : UKF F)
    (m : MeasurementPackage F) (hs : s.is_initialized_ = true) :
    (ProcessMeasurement E s m).time_us_ = m.timestamp_ := by
  rw [ProcessMeasurement_initialized E s m hs]
  split_ifs <;> rfl

/-- On an initialized filter the call stores the sigma points predicted over
the elapsed time. -/
theorem ProcessMeasurement_Xsig [FloorRing F] (E : Env F) (s : UKF F)
    (m : MeasurementPackage F) (hs : s.is_initialized_ = true) :
    (ProcessMeasurement E s m).Xsig_pred_ = (Prediction E s (elapsed s m)).Xsig_pred_ := by
  rw [ProcessMeasurement_initialized E s m hs]
  split_ifs <;> rfl

/-- A `LASER` package leaves the radar NIS as it was. -/
theorem ProcessMeasurement_NIS_radar [FloorRing F] (E : Env F) (s : UKF F)
    (m : MeasurementPackage F) (hs : s.is_initialized_ = true)
    (hm : m.sensor_type_ = SensorType.LASER) :
    (ProcessMeasurement E s m).NIS_radar_ = s.NIS_radar_ := by
  rw [ProcessMeasurement_initialized E s m hs, if_neg (by simp [hm])]
  rfl

/-- A `RADAR` package leaves the laser NIS as it was. -/
theorem ProcessMeasurement_NIS_laser [FloorRing F] (E : Env F) (s : UKF F)
    (m : MeasurementPackage F) (hs : s.is_initialized_ = true)
    (hm : m.sensor_type_ = SensorType.RADAR) :
    (ProcessMeasurement E s m).NIS_laser_ = s.NIS_laser_ := by
  rw [ProcessMeasurement_initialized E s m hs, if_pos hm]
  rfl

/-- A timestamp before the reference time gives a negative elapsed time. -/
theorem elapsed_neg (s : UKF F) (m : MeasurementPackage F) (h : m.timestamp_ < s.time_us_) :
    elapsed s m < 0 := by
  unfold elapsed
  apply div_neg_of_neg_of_pos _ (by norm_num)
  exact Int.cast_lt_zero.mpr (by omega)

/-- A `LASER` measurement at the origin, on a mean at the origin with zero
speed and a diagonal square root: the heading after the call is the heading
advanced by the turn rate over the elapsed time, whatever its sign. -/
theorem ProcessMeasurement_heading_origin [FloorRing F] (E : Env F) (s : UKF F)
    (m : MeasurementPackage F) (d : Fin 7 → F) (hs : s.is_initialized_ = true)
    (hm : m.sensor_type_ = SensorType.LASER)
    (hw : s.weights_ = weights n_aug_ (-4))
    (hH : s.H_ = !![1, 0, 0, 0, 0; 0, 1, 0, 0, 0])
    (hL : E.llt (P_aug s) = Matrix.diagonal d)
    (h0 : s.x_ 0 = 0) (h1 : s.x_ 1 = 0) (h2 : s.x_ 2 = 0)
    (hz0 : m.raw_measurements_ 0 = 0) (hz1 : m.raw_measurements_ 1 = 0) :
    (ProcessMeasurement E s m).x_ 3 = s.x_ 3 + s.x_ 4 * elapsed s m := by
  rw [ProcessMeasurement_initialized E s m hs, if_neg (by simp [hm])]
  have hpos : ∀ r : Fin 5, r = 0 ∨ r = 1 →
      (Prediction E ({ s with time_us_ := m.timestamp_ } : UKF F) (elapsed s m)).x_ r = 0 :=
    fun r hr => Prediction_position_origin E
      ({ s with time_us_ := m.timestamp_ } : UKF F) (elapsed s m) d hw hL h0 h1 h2 r hr
  have hy : lidarY
      (Prediction E ({ s with time_us_ := m.timestamp_ } : UKF F) (elapsed s m)) m = 0 := by
    rw [lidarY_eq (Prediction E ({ s with time_us_ := m.timestamp_ } : UKF F) (elapsed s m))
      m hH, hpos 0 (Or.inl rfl), hpos 1 (Or.inr rfl), hz0, hz1]
    funext i
    fin_cases i <;> simp
  rw [UpdateLidar_x_of_innovation_zero E _ m hy]
  exact Prediction_heading E ({ s with time_us_ := m.timestamp_ } : UKF F) (elapsed s m) hw

/-- The measurement model, written in closed form. -/
theorem measureColumn_eq (E : Env F) (c : Fin 5 → F) :
    measureColumn E c =
      ![E.sqrt (c 0 ^ 2 + c 1 ^ 2), E.atan2 (c 1) (c 0),
        (c 0 * c 2 * E.cos (c 3) + c 1 * c 2 * E.sin (c 3)) / E.sqrt (c 0 ^ 2 + c 1 ^ 2)] := by
  funext r
  fin_cases r <;> simp [measureColumn]
  ring

/-- The checked measurement model fails exactly when the range is zero. -/
theorem measureColumnChecked_eq_none (E : Env F) (c : Fin 5 → F) :
    measureColumnChecked E c = none ↔ E.sqrt (c 0 ^ 2 + c 1 ^ 2) = 0 := by
  simp only [measureColumnChecked, Option.map_eq_none', divChecked_eq_none]

/-- The checked measurement model returns the measured column when the range
is not zero. -/
theorem measureColumnChecked_of_ne (E : Env F) (c : Fin 5 → F)
    (h : E.sqrt (c 0 ^ 2 + c 1 ^ 2) ≠ 0) :
    measureColumnChecked E c = some (measureColumn E c) := by
  simp only [measureColumnChecked, measureColumn, divChecked_of_ne _ _ h, Option.map_some']

/-- A sum of two real squares is positive unless both terms are zero. -/
theorem sq_add_sq_pos_iff (x y : ℝ) : 0 < x ^ 2 + y ^ 2 ↔ ¬ (x = 0 ∧ y = 0) := by
  constructor
  · rintro h ⟨rfl, rfl⟩
    norm_num at h
  · intro h
    by_contra hn
    have hx := sq_nonneg x
    have hy := sq_nonneg y
    have h0 : x ^ 2 = 0 := by linarith
    have h1 : y ^ 2 = 0 := by linarith
    exact h ⟨pow_eq_zero_iff (two_ne_zero) |>.mp h0, pow_eq_zero_iff (two_ne_zero) |>.mp h1⟩

/-! ### Positive semi-definiteness through the position-sensor update -/

/-- With a right inverse of `S`, the gain of `UpdateLidar` times `S` is
`P_ * H_ᵀ`. -/
theorem lidarK_mul_S (E : Env F) (s : UKF F)
    (hS : lidarS s * E.inverse2 (lidarS s) = 1) :
    lidarK E s * lidarS s = s.P_ * s.H_ᵀ := by
  have hSi : E.inverse2 (lidarS s) * lidarS s = 1 := Matrix.mul_eq_one_comm.mp hS
  show s.P_ * s.H_ᵀ * E.inverse2 (lidarS s) * lidarS s = _
  rw [Matrix.mul_assoc, hSi, Matrix.mul_one]

/-- The covariance left by `UpdateLidar` in symmetric (Joseph) form. -/
theorem UpdateLidar_P_joseph (E : Env F) (s : UKF F) (m : MeasurementPackage F)
    (hS : lidarS s * E.inverse2 (lidarS s) = 1) :
    (UpdateLidar E s m).P_
      = (1 - lidarK E s * s.H_) * s.P_ * (1 - lidarK E s * s.H_)ᵀ
        + lidarK E s * s.R_lidar_ * (lidarK E s)ᵀ := by
  have hKS : lidarK E s * (s.H_ * s.P_ * s.H_ᵀ + s.R_lidar_) = s.P_ * s.H_ᵀ :=
    lidarK_mul_S E s hS
  have key : (1 - lidarK E s * s.H_) * s.P_ * (lidarK E s * s.H_)ᵀ
      = lidarK E s * s.R_lidar_ * (lidarK E s)ᵀ := by
    rw [Matrix.transpose_mul, ← Matrix.mul_assoc]
    congr 1
    rw [Matrix.mul_add] at hKS
    rw [Matrix.sub_mul, Matrix.sub_mul, Matrix.one_mul, sub_eq_iff_eq_add']
    simp only [Matrix.mul_assoc] at hKS ⊢
    exact hKS.symm
  show (1 - lidarK E s * s.H_) * s.P_ = _
  rw [Matrix.transpose_sub, Matrix.transpose_one, Matrix.mul_sub, Matrix.mul_one, key]
  abel

/-- A real positive semi-definite matrix has non-negative diagonal
entries. -/
theorem posSemidef_diag_nonneg {n : Nat} (M : Matrix (Fin n) (Fin n) ℝ) (h : M.PosSemidef)
    (i : Fin n) : 0 ≤ M i i := by
  have := h.2 (Pi.single i 1)
  simpa [Matrix.mulVec_single, Matrix.dotProduct, Pi.single_apply] using this

/-- A real positive semi-definite matrix has non-negative trace. -/
theorem posSemidef_trace_nonneg {n : Nat} (M : Matrix (Fin n) (Fin n) ℝ) (h : M.PosSemidef) :
    0 ≤ M.trace :=
  Finset.sum_nonneg fun i _ => posSemidef_diag_nonneg M h i

/-- The innovation covariance of `UpdateLidar` is positive semi-definite when
the prior and the measurement noise are. -/
theorem lidarS_posSemidef (s : UKF ℝ) (hP : s.P_.PosSemidef) (hR : s.R_lidar_.PosSemidef) :
    (lidarS s).PosSemidef := by
  have h := hP.mul_mul_conjTranspose_same s.H_
  rw [Matrix.conjTranspose_eq_transpose_of_trivial] at h
  exact h.add hR

/-- The constructor's lidar noise covariance is positive definite. -/
theorem construct_R_lidar_posDef (raw : UKF ℝ) : (UKF.construct raw).R_lidar_.PosDef := by
  have e : (UKF.construct raw).R_lidar_
      = Matrix.diagonal (fun _ : Fin 2 => ((15 : ℝ) / 100) ^ 2) := by
    ext i j
    fin_cases i <;> fin_cases j <;> rfl
  rw [e]
  exact Matrix.PosDef.diagonal fun _ => by norm_num

/-- With the constructor's measurement noise and a positive semi-definite
prior, the innovation covariance of `UpdateLidar` is invertible. -/
theorem lidarS_mul_inv (s : UKF ℝ) (hP : s.P_.PosSemidef)
    (hR : s.R_lidar_ = (UKF.construct s).R_lidar_) :
    (lidarS s).det ≠ 0 ∧ lidarS s * (lidarS s)⁻¹ = 1 := by
  have hRd : s.R_lidar_.PosDef := hR ▸ construct_R_lidar_posDef s
  have h := hP.mul_mul_conjTranspose_same s.H_
  rw [Matrix.conjTranspose_eq_transpose_of_trivial] at h
  have hS : (lidarS s).PosDef := Matrix.PosDef.posSemidef_add h hRd
  exact ⟨ne_of_gt hS.det_pos,
    Matrix.mul_nonsing_inv _ ((Matrix.isUnit_iff_isUnit_det _).mp hS.isUnit)⟩

/-- The covariance left by `UpdateLidar` is positive semi-definite when the
prior and the measurement noise are and the inverse is a right inverse. -/
theorem UpdateLidar_posSemidef (E : Env ℝ) (s : UKF ℝ) (m : MeasurementPackage ℝ)
    (hP : s.P_.PosSemidef) (hR : s.R_lidar_.PosSemidef)
    (hS : lidarS s * E.inverse2 (lidarS s) = 1) : (UpdateLidar E s m).P_.PosSemidef := by
  rw [UpdateLidar_P_joseph E s m hS]
  have h1 := hP.mul_mul_conjTranspose_same (1 - lidarK E s * s.H_)
  have h2 := hR.mul_mul_conjTranspose_same (lidarK E s)
  rw [Matrix.conjTranspose_eq_transpose_of_trivial] at h1 h2
  exact h1.add h2

/-- The amount `P_ * H_ᵀ * S⁻¹ * H_ * P_` that `UpdateLidar` subtracts from the
covariance is positive semi-definite. -/
theorem lidar_reduction_posSemidef (E : Env ℝ) (s : UKF ℝ)
    (hP : s.P_.PosSemidef) (hR : s.R_lidar_.PosSemidef)
    (hS : lidarS s * E.inverse2 (lidarS s) = 1) :
    (s.P_ * s.H_ᵀ * E.inverse2 (lidarS s) * s.H_ * s.P_).PosSemidef := by
  have hPs : s.P_ᵀ = s.P_ := by
    have := hP.1
    rwa [Matrix.IsHermitian, Matrix.conjTranspose_eq_transpose_of_trivial] at this
  have hRs : s.R_lidar_ᵀ = s.R_lidar_ := by
    have := hR.1
    rwa [Matrix.IsHermitian, Matrix.conjTranspose_eq_transpose_of_trivial] at this
  have hSi : (E.inverse2 (lidarS s))ᵀ = E.inverse2 (lidarS s) :=
    isSymm_of_mul_eq_one _ _ (lidarS_isSymm s hPs hRs) hS
  have h := (lidarS_posSemidef s hP hR).conjTranspose_mul_mul_same
    (E.inverse2 (lidarS s) * (s.H_ * s.P_))
  rw [Matrix.conjTranspose_eq_transpose_of_trivial] at h
  have e : (E.inverse2 (lidarS s) * (s.H_ * s.P_))ᵀ * lidarS s
        * (E.inverse2 (lidarS s) * (s.H_ * s.P_))
      = s.P_ * s.H_ᵀ * E.inverse2 (lidarS s) * s.H_ * s.P_ := by
    rw [Matrix.transpose_mul, Matrix.transpose_mul, hPs, hSi]
    calc s.P_ * s.H_ᵀ * E.inverse2 (lidarS s) * lidarS s
          * (E.inverse2 (lidarS s) * (s.H_ * s.P_))
        = s.P_ * s.H_ᵀ * E.inverse2 (lidarS s)
          * (lidarS s * E.inverse2 (lidarS s)) * (s.H_ * s.P_) := by
          simp only [Matrix.mul_assoc]
      _ = s.P_ * s.H_ᵀ * E.inverse2 (lidarS s) * s.H_ * s.P_ := by
          rw [hS, Matrix.mul_one]
          simp only [Matrix.mul_assoc]
  rwa [e] at h

/-- The trace of the covariance left by `UpdateLidar` is at most the trace of
the prior. -/
theorem UpdateLidar_trace_le (E : Env ℝ) (s : UKF ℝ) (m : MeasurementPackage ℝ)
    (hP : s.P_.PosSemidef) (hR : s.R_lidar_.PosSemidef)
    (hS : lidarS s * E.inverse2 (lidarS s) = 1) :
    (UpdateLidar E s m).P_.trace ≤ s.P_.trace := by
  rw [UpdateLidar_P, Matrix.trace_sub]
  have := posSemidef_trace_nonneg _ (lidar_reduction_posSemidef E s hP hR hS)
  linarith

/-- The constructor's covariance is positive semi-definite. -/
theorem construct_P_posSemidef (raw : UKF ℝ) : (UKF.construct raw).P_.PosSemidef := by
  have e : (UKF.construct raw).P_
      = Matrix.diagonal (![2 / 10, 2 / 10, 2 / 10, 3 / 10, 3 / 10] : Fin 5 → ℝ) := by
    ext i j
    fin_cases i <;> fin_cases j <;> rfl
  rw [e]
  refine Matrix.PosSemidef.diagonal fun i => ?_
  fin_cases i
  · show (0 : ℝ) ≤ 2 / 10; norm_num
  · show (0 : ℝ) ≤ 2 / 10; norm_num
  · show (0 : ℝ) ≤ 2 / 10; norm_num
  · show (0 : ℝ) ≤ 3 / 10; norm_num
  · show (0 : ℝ) ≤ 3 / 10; norm_num

/-! ### Termination of the normalisation loops -/

/-- With the exact subtraction the first loop exits within
`⌈(a - M_PI) / (2 * M_PI)⌉ + 1` loop tests, at the value of `wrapDown`. -/
theorem wrapDownFuel_exact [FloorRing F] (p : F) (hp : 0 < p) (fuel : Nat) (a : F)
    (h : (Int.ceil ((a - p) / (2 * p))).toNat < fuel) :
    wrapDownFuel (fun x y => x - y) p fuel a = some (wrapDown p hp a) := by
  induction fuel generalizing a with
  | zero => exact absurd h (Nat.not_lt_zero _)
  | succ n ih =>
    by_cases hlt : p < a
    · have h2 : 0 < 2 * p := by linarith
      have hq : 0 < (a - p) / (2 * p) := div_pos (by linarith) h2
      have he : (a - 2 * p - p) / (2 * p) = (a - p) / (2 * p) - 1 := by
        field_simp
        ring
      have hc := Int.ceil_pos.mpr hq
      have hn : (Int.ceil ((a - 2 * p - p) / (2 * p))).toNat < n := by
        rw [he, Int.ceil_sub_one]
        omega
      rw [wrapDownFuel, if_pos hlt, wrapDown, if_pos hlt]
      exact ih (a - 2 * p) hn
    · rw [wrapDownFuel, if_neg hlt, wrapDown, if_neg hlt]

/-- With the exact addition the second loop exits within
`⌈(-M_PI - a) / (2 * M_PI)⌉ + 1` loop tests, at the value of `wrapUp`. -/
theorem wrapUpFuel_exact [FloorRing F] (p : F) (hp : 0 < p) (fuel : Nat) (a : F)
    (h : (Int.ceil ((-p - a) / (2 * p))).toNat < fuel) :
    wrapUpFuel (fun x y => x + y) p fuel a = some (wrapUp p hp a) := by
  induction fuel generalizing a with
  | zero => exact absurd h (Nat.not_lt_zero _)
  | succ n ih =>
    by_cases hlt : a < -p
    · have h2 : 0 < 2 * p := by linarith
      have hq : 0 < (-p - a) / (2 * p) := div_pos (by linarith) h2
      have he : (-p - (a + 2 * p)) / (2 * p) = (-p - a) / (2 * p) - 1 := by
        field_simp
        ring
      have hc := Int.ceil_pos.mpr hq
      have hn : (Int.ceil ((-p - (a + 2 * p)) / (2 * p))).toNat < n := by
        rw [he, Int.ceil_sub_one]
        omega
      rw [wrapUpFuel, if_pos hlt, wrapUp, if_pos hlt]
      exact ih (a + 2 * p) hn
    · rw [wrapUpFuel, if_neg hlt, wrapUp, if_neg hlt]

/-- With exact arithmetic both loops exit for every input: from some fuel on
the bounded loops return the value of `normalize`. -/
theorem normalizeFuel_exact [FloorRing F] (E : Env F) (a : F) :
    ∃ n : Nat, ∀ fuel : Nat, n ≤ fuel →
      normalizeFuel (fun x y => x - y) (fun x y => x + y) E.M_PI fuel a
        = some (normalize E a) := by
  refine ⟨(Int.ceil ((a - E.M_PI) / (2 * E.M_PI))).toNat
    + (Int.ceil ((-E.M_PI - wrapDown E.M_PI E.M_PI_pos a) / (2 * E.M_PI))).toNat + 1,
    fun fuel hf => ?_⟩
  unfold normalizeFuel normalize
  rw [wrapDownFuel_exact E.M_PI E.M_PI_pos fuel a (by omega), Option.some_bind,
    wrapUpFuel_exact E.M_PI E.M_PI_pos fuel _ (by omega)]

/-- A subtraction that absorbs `2 * M_PI` at a value above `M_PI` keeps the
first loop from ever exiting. -/
theorem wrapDownFuel_absorb (sub : F → F → F) (p a : F) (hlt : p < a)
    (habs : sub a (2 * p) = a) (fuel : Nat) : wrapDownFuel sub p fuel a = none := by
  induction fuel with
  | zero => rfl
  | succ n ih => rw [wrapDownFuel, if_pos hlt, habs, ih]

/-- An addition that absorbs `2 * M_PI` at a value below `-M_PI` keeps the
second loop from ever exiting. -/
theorem wrapUpFuel_absorb (add : F → F → F) (p a : F) (hlt : a < -p)
    (habs : add a (2 * p) = a) (fuel : Nat) : wrapUpFuel add p fuel a = none := by
  induction fuel with
  | zero => rfl
  | succ n ih => rw [wrapUpFuel, if_pos hlt, habs, ih]

/-- Under an absorbing subtraction above `M_PI` the two loops in sequence
never return. -/
theorem normalizeFuel_absorb_down (sub add : F → F → F) (p a : F) (hlt : p < a)
    (habs : sub a (2 * p) = a) (fuel : Nat) : normalizeFuel sub add p fuel a = none := by
  unfold normalizeFuel
  rw [wrapDownFuel_absorb sub p a hlt habs fuel]
  rfl

/-- Under an absorbing addition below `-M_PI` the two loops in sequence
never return. -/
theorem normalizeFuel_absorb_up (sub add : F → F → F) (p a : F) (hp : 0 < p) (hlt : a < -p)
    (habs : add a (2 * p) = a) (fuel : Nat) : normalizeFuel sub add p fuel a = none := by
  unfold normalizeFuel
  cases fuel with
  | zero => rfl
  | succ n =>
    have hle : ¬ p < a := by linarith
    rw [wrapDownFuel, if_neg hle, Option.some_bind]
    exact wrapUpFuel_absorb add p a hlt habs (n + 1)

/-- The heading written by the first `RADAR` measurement. -/
theorem radarFirstState_three (E : Env F) (m : MeasurementPackage F) :
    radarFirstState E m 3
      = if |m.raw_measurements_ 2 * E.cos (m.raw_measurements_ 1)| < 1 / 10000 then
          E.atan2 (m.raw_measurements_ 2 * E.cos (m.raw_measurements_ 1))
            (m.raw_measurements_ 2 * E.sin (m.raw_measurements_ 1))
        else 1 / 10 := by
  simp only [radarFirstState]
  rfl

end Aux

section Claims

variable {F : Type} [LinearOrderedField F]

/-- C1. The sigma-point weights sum to one: the 15 weights built by the
constructor add up to exactly `1`, and for every `n_aug ≥ 1` and every
`lambda` with `lambda + n_aug ≠ 0` the `2 * n_aug + 1` weights defined the same
way add up to `1`. -/
theorem C1_weights_sum_one :
    (∀ raw : UKF F, ∑ i, (UKF.construct raw).weights_ i = 1) ∧
    (∀ (n_aug : Nat) (lambda : F), 1 ≤ n_aug → lambda + (n_aug : F) ≠ 0 →
      ∑ i, weights n_aug lambda i = 1) := by
  refine ⟨fun raw => ?_, fun n_aug lambda _ h => weights_sum n_aug lambda h⟩
  rw [construct_weights]
  exact weights_sum n_aug_ (-4) (by norm_num)

/-- C1, at `n_aug = 2`, `lambda = 1` over the rationals. -/
theorem C1_weights_sum_one_witness :
    (1 : ℚ) + ((2 : Nat) : ℚ) ≠ 0 ∧ ∑ i, weights 2 (1 : ℚ) i = 1 :=
  ⟨by norm_num, (C1_weights_sum_one (F := ℚ)).2 2 1 (by decide) (by norm_num)⟩

/-- C2. Sigma-point round trip: for every augmented mean `xa` and every
augmented covariance `P` with a factor `L`, `L * Lᵀ = P`, the 15 sigma points
generated as in `Prediction` satisfy, with the constructor's weights and
spreading parameter, `∑ w_i X_i = xa` and
`∑ w_i (X_i - xa) (X_i - xa)ᵀ = P`. -/
theorem C2_sigma_round_trip (E : Env ℝ) (raw : UKF ℝ) (xa : Fin 7 → ℝ)
    (L P : Matrix (Fin 7) (Fin 7) ℝ) (hsqrt : E.sqrt = Real.sqrt) (hL : L * Lᵀ = P) :
    weightedMean (UKF.construct raw).weights_
        (sigmaPoints E (UKF.construct raw).lambda_ xa L) = xa ∧
    ∑ i : Fin 15, (UKF.construct raw).weights_ i •
        Matrix.vecMulVec
          (fun r => sigmaPoints E (UKF.construct raw).lambda_ xa L r i - xa r)
          (fun r => sigmaPoints E (UKF.construct raw).lambda_ xa L r i - xa r) = P := by
  rw [construct_weights, construct_lambda]
  have hl : (-4 : ℝ) + 7 ≠ 0 := by norm_num
  have hq : E.sqrt (-4 + 7) * E.sqrt (-4 + 7) = -4 + 7 := by
    rw [hsqrt]; exact Real.mul_self_sqrt (by norm_num)
  constructor
  · funext r
    rw [weightedMean_apply]
    exact sigma_first_moment E (-4) hl (-4) xa L r
  · rw [← hL]
    ext i j
    rw [Matrix.sum_apply]
    simp only [Matrix.smul_apply, Matrix.vecMulVec_apply, smul_eq_mul]
    exact sigma_second_moment E (-4) hl hq xa L i j

/-- C2, at the zero mean with `L = P = 1` and the real square root. -/
theorem C2_sigma_round_trip_witness :
    let E : Env ℝ := Env.mk Real.cos Real.sin Real.sqrt (fun y x => Complex.arg ⟨x, y⟩)
      Real.pi Real.pi_pos (fun M => M) (fun M => M) (fun M => M)
    let c : UKF ℝ := UKF.construct UKF.blank
    (1 : Matrix (Fin 7) (Fin 7) ℝ) * 1ᵀ = 1 ∧
    weightedMean c.weights_ (sigmaPoints E c.lambda_ 0 1) = 0 ∧
    ∑ i : Fin 15, c.weights_ i •
        Matrix.vecMulVec (fun r => sigmaPoints E c.lambda_ 0 1 r i - (0 : Fin 7 → ℝ) r)
          (fun r => sigmaPoints E c.lambda_ 0 1 r i - (0 : Fin 7 → ℝ) r) = 1 := by
  intro E c
  have h : (1 : Matrix (Fin 7) (Fin 7) ℝ) * 1ᵀ = 1 := by simp
  exact ⟨h, C2_sigma_round_trip E UKF.blank 0 1 1 rfl h⟩

/-- C3. Initialization by a position measurement: on a freshly constructed,
uninitialized filter a `LASER` measurement with both components nonzero makes
the filter initialized, sets `x_(0)`, `x_(1)` to the measured components,
leaves `x_(2)`, `x_(3)`, `x_(4)` at the construction defaults `0.1, 0.1, 0.01`,
records the timestamp as `time_us_` and runs neither prediction nor update:
`P_` and `Xsig_pred_` are unchanged and both NIS values remain `0`. -/
theorem C3_laser_initialization [FloorRing F] (E : Env F) (raw : UKF F)
    (m : MeasurementPackage F) (hraw : raw.is_initialized_ = false)
    (hs : m.sensor_type_ = SensorType.LASER)
    (h0 : m.raw_measurements_ 0 ≠ 0) (h1 : m.raw_measurements_ 1 ≠ 0) :
    (ProcessMeasurement E (UKF.construct raw) m).is_initialized_ = true ∧
    (ProcessMeasurement E (UKF.construct raw) m).x_
      = ![m.raw_measurements_ 0, m.raw_measurements_ 1, 1 / 10, 1 / 10, 1 / 100] ∧
    (ProcessMeasurement E (UKF.construct raw) m).time_us_ = m.timestamp_ ∧
    (ProcessMeasurement E (UKF.construct raw) m).P_ = (UKF.construct raw).P_ ∧
    (ProcessMeasurement E (UKF.construct raw) m).Xsig_pred_ = raw.Xsig_pred_ ∧
    (ProcessMeasurement E (UKF.construct raw) m).NIS_laser_ = 0 ∧
    (ProcessMeasurement E (UKF.construct raw) m).NIS_radar_ = 0 := by
  have hi : (UKF.construct raw).is_initialized_ = false := hraw
  rw [ProcessMeasurement_first E _ m hi ⟨h0, h1⟩, firstMeasurement_laser E _ m hs rfl]
  refine ⟨rfl, ?_, rfl, rfl, rfl, rfl, rfl⟩
  simp [UKF.construct]

/-- C3, at the measurement `x = 1, y = 1, t = 0`. -/
theorem C3_laser_initialization_witness :
    let E : Env ℝ := Env.mk Real.cos Real.sin Real.sqrt (fun y x => Complex.arg ⟨x, y⟩)
      Real.pi Real.pi_pos (fun M => M) (fun M => M) (fun M => M)
    let m : MeasurementPackage ℝ := ⟨0, SensorType.LASER, ![1, 1, 0]⟩
    (ProcessMeasurement E (UKF.construct UKF.blank) m).is_initialized_ = true ∧
    (ProcessMeasurement E (UKF.construct UKF.blank) m).x_
      = ![m.raw_measurements_ 0, m.raw_measurements_ 1, 1 / 10, 1 / 10, 1 / 100] ∧
    (ProcessMeasurement E (UKF.construct UKF.blank) m).time_us_ = m.timestamp_ ∧
    (ProcessMeasurement E (UKF.construct UKF.blank) m).P_
      = (UKF.construct (UKF.blank : UKF ℝ)).P_ ∧
    (ProcessMeasurement E (UKF.construct UKF.blank) m).Xsig_pred_
      = (UKF.blank : UKF ℝ).Xsig_pred_ ∧
    (ProcessMeasurement E (UKF.construct UKF.blank) m).NIS_laser_ = 0 ∧
    (ProcessMeasurement E (UKF.construct UKF.blank) m).NIS_radar_ = 0 := by
  intro E m
  exact C3_laser_initialization E UKF.blank m rfl rfl (by simp [m]) (by simp [m])

/-- C4. Initialization happens exactly when the first two raw components are
both nonzero: on an uninitialized filter the flag is true after the call if
and only if `raw_measurements_(0) != 0` and `raw_measurements_(1) != 0`; when
either component is zero the call changes nothing at all. -/
theorem C4_initialization_iff [FloorRing F] (E : Env F) (s : UKF F)
    (m : MeasurementPackage F) (hs : s.is_initialized_ = false) :
    ((ProcessMeasurement E s m).is_initialized_ = true ↔
      (m.raw_measurements_ 0 ≠ 0 ∧ m.raw_measurements_ 1 ≠ 0)) ∧
    (¬ (m.raw_measurements_ 0 ≠ 0 ∧ m.raw_measurements_ 1 ≠ 0) →
      ProcessMeasurement E s m = s) := by
  by_cases h : m.raw_measurements_ 0 ≠ 0 ∧ m.raw_measurements_ 1 ≠ 0
  · rw [ProcessMeasurement_first E s m hs h]
    exact ⟨⟨fun _ => h, fun _ => rfl⟩, fun hn => absurd h hn⟩
  · rw [ProcessMeasurement_stall E s m hs h]
    refine ⟨⟨fun hi => ?_, fun hc => absurd hc h⟩, fun _ => rfl⟩
    rw [hs] at hi
    exact absurd hi (by decide)

/-- C4, at the blank uninitialized filter and the measurement `(0, 1)`. -/
theorem C4_initialization_iff_witness :
    let E : Env ℝ := Env.mk Real.cos Real.sin Real.sqrt (fun y x => Complex.arg ⟨x, y⟩)
      Real.pi Real.pi_pos (fun M => M) (fun M => M) (fun M => M)
    let m : MeasurementPackage ℝ := ⟨0, SensorType.LASER, ![0, 1, 0]⟩
    (UKF.blank : UKF ℝ).is_initialized_ = false ∧
    ((ProcessMeasurement E UKF.blank m).is_initialized_ = true ↔
      (m.raw_measurements_ 0 ≠ 0 ∧ m.raw_measurements_ 1 ≠ 0)) ∧
    (¬ (m.raw_measurements_ 0 ≠ 0 ∧ m.raw_measurements_ 1 ≠ 0) →
      ProcessMeasurement E UKF.blank m = UKF.blank) := by
  intro E m
  exact ⟨rfl, C4_initialization_iff E UKF.blank m rfl⟩

/-- C5, refuted as stated.  Radar bootstrap of the heading, evaluated on the
code.  At the
measurement `(r, theta, rdot) = (1, 1, 1)` the x-velocity `vx = cos 1` exceeds
the threshold `0.0001`, yet the heading is set to the default `0.1`, which
differs from `atan2` of the velocity components in either argument order.  At
`(1, 1, 0)` the x-velocity is `0`, below the threshold, and the heading is
set to `atan2(0, 0) = 0` and not to the default `0.1`. -/
theorem C5_radar_heading_inverted :
    let E : Env ℝ := Env.mk Real.cos Real.sin Real.sqrt (fun y x => Complex.arg ⟨x, y⟩)
      Real.pi Real.pi_pos (fun M => M) (fun M => M) (fun M => M)
    let s : UKF ℝ := UKF.construct UKF.blank
    let m : MeasurementPackage ℝ := ⟨0, SensorType.RADAR, ![1, 1, 1]⟩
    let m0 : MeasurementPackage ℝ := ⟨0, SensorType.RADAR, ![1, 1, 0]⟩
    (s.is_initialized_ = false ∧ s.use_radar_ = true) ∧
    (1 / 10000 < |(1 : ℝ) * Real.cos 1| ∧
      (ProcessMeasurement E s m).x_ 3 = 1 / 10 ∧
      E.atan2 (1 * Real.cos 1) (1 * Real.sin 1) ≠ 1 / 10 ∧
      E.atan2 (1 * Real.sin 1) (1 * Real.cos 1) ≠ 1 / 10) ∧
    (¬ (1 / 10000 < |(0 : ℝ) * Real.cos 1|) ∧
      (ProcessMeasurement E s m0).x_ 3 = 0 ∧
      (ProcessMeasurement E s m0).x_ 3 ≠ 1 / 10) := by
  intro E s m m0
  have hc : (1 : ℝ) / 2 ≤ Real.cos 1 := by
    have := Real.one_sub_sq_div_two_le_cos (x := 1)
    linarith
  have hs1 : (1 : ℝ) / 2 ≤ Real.sin 1 := by
    have := Real.sin_gt_sub_cube (x := 1) (by norm_num) (by norm_num)
    linarith
  have hsin : Real.sin (1 / 10) ≤ 1 / 10 := Real.sin_le (by norm_num)
  have hx : (ProcessMeasurement E s m).x_ 3 = 1 / 10 := by
    rw [ProcessMeasurement_first E s m rfl ⟨by simp [m], by simp [m]⟩,
      firstMeasurement_radar E s m rfl rfl]
    have hlt : ¬ |(1 : ℝ) * Real.cos 1| < 1 / 10000 := by
      rw [one_mul, abs_of_nonneg (by linarith)]
      linarith
    simp only [radarFirstState, m, E]
    simp
    intro h
    rw [abs_of_nonneg (by linarith)] at h
    have : (10000 : ℝ)⁻¹ < 1 / 2 := by norm_num
    linarith
  have hx0 : (ProcessMeasurement E s m0).x_ 3 = 0 := by
    rw [ProcessMeasurement_first E s m0 rfl ⟨by simp [m0], by simp [m0]⟩,
      firstMeasurement_radar E s m0 rfl rfl]
    simp only [radarFirstState, m0, E]
    simp
    have h00 : (⟨0, 0⟩ : ℂ) = 0 := rfl
    rw [h00, Complex.arg_zero]
  have habs : Complex.abs ⟨1 * Real.sin 1, 1 * Real.cos 1⟩ = 1 := by
    rw [Complex.abs_apply, Complex.normSq_mk]
    have := Real.cos_sq_add_sin_sq (1 : ℝ)
    rw [show 1 * Real.sin 1 * (1 * Real.sin 1) + 1 * Real.cos 1 * (1 * Real.cos 1) = 1 by
      nlinarith]
    exact Real.sqrt_one
  have habs2 : Complex.abs ⟨1 * Real.cos 1, 1 * Real.sin 1⟩ = 1 := by
    rw [Complex.abs_apply, Complex.normSq_mk]
    have := Real.cos_sq_add_sin_sq (1 : ℝ)
    rw [show 1 * Real.cos 1 * (1 * Real.cos 1) + 1 * Real.sin 1 * (1 * Real.sin 1) = 1 by
      nlinarith]
    exact Real.sqrt_one
  refine ⟨⟨rfl, rfl⟩, ⟨?_, hx, ?_, ?_⟩, ?_, hx0, ?_⟩
  · rw [one_mul, abs_of_nonneg (by linarith)]; linarith
  · intro h
    have h2 := Complex.sin_arg (⟨1 * Real.sin 1, 1 * Real.cos 1⟩ : ℂ)
    rw [habs] at h2
    have h3 : Complex.arg ⟨1 * Real.sin 1, 1 * Real.cos 1⟩ = 1 / 10 := h
    rw [h3] at h2
    simp at h2
    linarith
  · intro h
    have h2 := Complex.sin_arg (⟨1 * Real.cos 1, 1 * Real.sin 1⟩ : ℂ)
    rw [habs2] at h2
    have h3 : Complex.arg ⟨1 * Real.cos 1, 1 * Real.sin 1⟩ = 1 / 10 := h
    rw [h3] at h2
    simp at h2
    linarith
  · simp
  · rw [hx0]; norm_num

/-- C5, as amended.  Radar bootstrap of the heading: on an uninitialized filter
with the radar enabled, a `RADAR` measurement `(r, theta, rdot)` with
`r ≠ 0` and `theta ≠ 0`, `vx = rdot * cos(theta)` and
`vy = rdot * sin(theta)`, sets the heading `x_(3)` to `atan2(vx, vy)` when
`|vx|` is below the threshold `0.0001`, and to the default `0.1`
otherwise. -/
theorem C5_radar_heading [FloorRing F] (E : Env F) (s : UKF F) (m : MeasurementPackage F)
    (hs : s.is_initialized_ = false) (hr : s.use_radar_ = true)
    (hm : m.sensor_type_ = SensorType.RADAR)
    (h0 : m.raw_measurements_ 0 ≠ 0) (h1 : m.raw_measurements_ 1 ≠ 0) :
    (|m.raw_measurements_ 2 * E.cos (m.raw_measurements_ 1)| < 1 / 10000 →
      (ProcessMeasurement E s m).x_ 3
        = E.atan2 (m.raw_measurements_ 2 * E.cos (m.raw_measurements_ 1))
            (m.raw_measurements_ 2 * E.sin (m.raw_measurements_ 1))) ∧
    (¬ |m.raw_measurements_ 2 * E.cos (m.raw_measurements_ 1)| < 1 / 10000 →
      (ProcessMeasurement E s m).x_ 3 = 1 / 10) := by
  rw [ProcessMeasurement_first E s m hs ⟨h0, h1⟩, firstMeasurement_radar E s m hm hr]
  show (_ → radarFirstState E m 3 = _) ∧ (_ → radarFirstState E m 3 = _)
  rw [radarFirstState_three]
  exact ⟨fun h => if_pos h, fun h => if_neg h⟩

/-- C5 as amended, at the measurements `(1, 1, 0)`, whose `vx` is `0`, and
`(1, 1, 1)`, whose `vx` is `cos 1`. -/
theorem C5_radar_heading_witness :
    let E : Env ℝ := Env.mk Real.cos Real.sin Real.sqrt (fun y x => Complex.arg ⟨x, y⟩)
      Real.pi Real.pi_pos (fun M => M) (fun M => M) (fun M => M)
    let s : UKF ℝ := UKF.construct UKF.blank
    let m0 : MeasurementPackage ℝ := ⟨0, SensorType.RADAR, ![1, 1, 0]⟩
    let m1 : MeasurementPackage ℝ := ⟨0, SensorType.RADAR, ![1, 1, 1]⟩
    (|(0 : ℝ) * Real.cos 1| < 1 / 10000 ∧
      (ProcessMeasurement E s m0).x_ 3 = E.atan2 (0 * Real.cos 1) (0 * Real.sin 1)) ∧
    (¬ |(1 : ℝ) * Real.cos 1| < 1 / 10000 ∧ (ProcessMeasurement E s m1).x_ 3 = 1 / 10) := by
  intro E s m0 m1
  have hc : (1 : ℝ) / 2 ≤ Real.cos 1 := by
    have := Real.one_sub_sq_div_two_le_cos (x := 1)
    linarith
  have hlt0 : |(0 : ℝ) * Real.cos 1| < 1 / 10000 := by
    rw [zero_mul, abs_zero]
    norm_num
  have hge1 : ¬ |(1 : ℝ) * Real.cos 1| < 1 / 10000 := by
    rw [one_mul, abs_of_nonneg (by linarith)]
    linarith
  have h0 := C5_radar_heading E s m0 rfl rfl rfl (by simp [m0]) (by simp [m0])
  have h1 := C5_radar_heading E s m1 rfl rfl rfl (by simp [m1]) (by simp [m1])
  exact ⟨⟨hlt0, h0.1 hlt0⟩, hge1, h1.2 hge1⟩

/-- C6. Radar bootstrap of position and speed: on an uninitialized filter
with the radar enabled, a `RADAR` measurement `(r, theta, rdot)` with
`r ≠ 0` and `theta ≠ 0` sets `x_(0) = r cos theta`, `x_(1) = r sin theta`,
`x_(2) = sqrt((rdot cos theta)^2 + (rdot sin theta)^2)`, which is `|rdot|`
and so non-negative, `x_(4) = 0.01`, marks the filter initialized, records
the timestamp, and leaves `P_` and both NIS values unchanged. -/
theorem C6_radar_bootstrap (E : Env ℝ) (s : UKF ℝ) (m : MeasurementPackage ℝ)
    (hcos : E.cos = Real.cos) (hsin : E.sin = Real.sin) (hsqrt : E.sqrt = Real.sqrt)
    (hs : s.is_initialized_ = false) (hr : s.use_radar_ = true)
    (hm : m.sensor_type_ = SensorType.RADAR)
    (h0 : m.raw_measurements_ 0 ≠ 0) (h1 : m.raw_measurements_ 1 ≠ 0) :
    (ProcessMeasurement E s m).x_ 0
      = m.raw_measurements_ 0 * Real.cos (m.raw_measurements_ 1) ∧
    (ProcessMeasurement E s m).x_ 1
      = m.raw_measurements_ 0 * Real.sin (m.raw_measurements_ 1) ∧
    (ProcessMeasurement E s m).x_ 2
      = Real.sqrt ((m.raw_measurements_ 2 * Real.cos (m.raw_measurements_ 1)) ^ 2
          + (m.raw_measurements_ 2 * Real.sin (m.raw_measurements_ 1)) ^ 2) ∧
    (ProcessMeasurement E s m).x_ 2 = |m.raw_measurements_ 2| ∧
    0 ≤ (ProcessMeasurement E s m).x_ 2 ∧
    (ProcessMeasurement E s m).x_ 4 = 1 / 100 ∧
    (ProcessMeasurement E s m).is_initialized_ = true ∧
    (ProcessMeasurement E s m).time_us_ = m.timestamp_ ∧
    (ProcessMeasurement E s m).P_ = s.P_ ∧
    (ProcessMeasurement E s m).NIS_laser_ = s.NIS_laser_ ∧
    (ProcessMeasurement E s m).NIS_radar_ = s.NIS_radar_ := by
  rw [ProcessMeasurement_first E s m hs ⟨h0, h1⟩, firstMeasurement_radar E s m hm hr]
  have hx2 : radarFirstState E m 2
      = Real.sqrt ((m.raw_measurements_ 2 * Real.cos (m.raw_measurements_ 1)) ^ 2
          + (m.raw_measurements_ 2 * Real.sin (m.raw_measurements_ 1)) ^ 2) := by
    simp [radarFirstState, hcos, hsin, hsqrt]
  have habs : Real.sqrt ((m.raw_measurements_ 2 * Real.cos (m.raw_measurements_ 1)) ^ 2
      + (m.raw_measurements_ 2 * Real.sin (m.raw_measurements_ 1)) ^ 2)
      = |m.raw_measurements_ 2| := by
    have e : (m.raw_measurements_ 2 * Real.cos (m.raw_measurements_ 1)) ^ 2
        + (m.raw_measurements_ 2 * Real.sin (m.raw_measurements_ 1)) ^ 2
        = (m.raw_measurements_ 2) ^ 2 := by
      have := Real.cos_sq_add_sin_sq (m.raw_measurements_ 1)
      linear_combination (m.raw_measurements_ 2) ^ 2 * this
    rw [e, Real.sqrt_sq_eq_abs]
  refine ⟨?_, ?_, hx2, ?_, ?_, ?_, rfl, rfl, rfl, rfl, rfl⟩
  · simp [radarFirstState, hcos]
  · simp [radarFirstState, hsin]
  · exact hx2.trans habs
  · show 0 ≤ radarFirstState E m 2
    rw [hx2]; exact Real.sqrt_nonneg _
  · simp [radarFirstState]

/-- C6, at the blank filter with the radar enabled and the measurement
`(r, theta, rdot) = (1, 1, -2)`. -/
theorem C6_radar_bootstrap_witness :
    let E : Env ℝ := Env.mk Real.cos Real.sin Real.sqrt (fun y x => Complex.arg ⟨x, y⟩)
      Real.pi Real.pi_pos (fun M => M) (fun M => M) (fun M => M)
    let s : UKF ℝ := UKF.construct UKF.blank
    let m : MeasurementPackage ℝ := ⟨5, SensorType.RADAR, ![1, 1, -2]⟩
    (ProcessMeasurement E s m).x_ 0 = 1 * Real.cos 1 ∧
    (ProcessMeasurement E s m).x_ 1 = 1 * Real.sin 1 ∧
    (ProcessMeasurement E s m).x_ 2 = |(-2 : ℝ)| ∧
    (ProcessMeasurement E s m).is_initialized_ = true ∧
    (ProcessMeasurement E s m).time_us_ = 5 := by
  intro E s m
  have h := C6_radar_bootstrap E s m rfl rfl rfl rfl rfl rfl
    (by simp [m]) (by simp [m])
  exact ⟨h.1, h.2.1, h.2.2.2.1, h.2.2.2.2.2.2.1, h.2.2.2.2.2.2.2.1⟩

/-- C7. A disabled sensor after initialization, evaluated on the code.  On
the constructed filter, marked initialized and with `use_laser_` cleared, the
`LASER` measurement `(1, 1)` at the reference time is predicted over and
folded in: `x_(0)` moves from `0.1` to `809/890`.  With `use_radar_` cleared a
`RADAR` measurement likewise runs `Prediction` and `UpdateRadar`.  The
environment has the real functions, the diagonal square root for `llt` and
the matrix inverse for `inverse()`. -/
theorem C7_disabled_sensor_still_updates :
    let E : Env ℝ := Env.mk Real.cos Real.sin Real.sqrt (fun y x => Complex.arg ⟨x, y⟩)
      Real.pi Real.pi_pos (fun A => Matrix.diagonal fun i => Real.sqrt (A i i))
      (fun M => M⁻¹) (fun M => M⁻¹)
    let sl : UKF ℝ :=
      { UKF.construct UKF.blank with is_initialized_ := true, use_laser_ := false }
    let sr : UKF ℝ :=
      { UKF.construct UKF.blank with is_initialized_ := true, use_radar_ := false }
    let ml : MeasurementPackage ℝ := ⟨0, SensorType.LASER, ![1, 1, 0]⟩
    let mr : MeasurementPackage ℝ := ⟨0, SensorType.RADAR, ![1, 1, 1]⟩
    (sl.is_initialized_ = true ∧ sl.use_laser_ = false ∧ sl.x_ 0 = 1 / 10 ∧
      (ProcessMeasurement E sl ml).x_ 0 = 809 / 890 ∧
      (ProcessMeasurement E sl ml).x_ ≠ sl.x_) ∧
    (sr.is_initialized_ = true ∧ sr.use_radar_ = false ∧
      ProcessMeasurement E sr mr = UpdateRadar E (Prediction E sr 0) mr) := by
  intro E sl sr ml mr
  have hw : sl.weights_ = weights n_aug_ (-4) := construct_weights (UKF.blank : UKF ℝ)
  have hl : sl.lambda_ = -4 := construct_lambda (UKF.blank : UKF ℝ)
  have hq : E.sqrt (-4 + 7) * E.sqrt (-4 + 7) = -4 + 7 := Real.mul_self_sqrt (by norm_num)
  have hL : E.llt (P_aug sl) * (E.llt (P_aug sl))ᵀ = P_aug sl :=
    construct_diagonal_sqrt (UKF.blank : UKF ℝ)
  have hx : (Prediction E sl 0).x_ = sl.x_ := Prediction_zero_x E sl hw
  have hP : ∀ i j : Fin 5, i ≠ 3 → j ≠ 3 → (Prediction E sl 0).P_ i j = sl.P_ i j :=
    fun i j hi hj => Prediction_zero_P_apply E sl hw hl hq hL i j hi hj
  have hH : (Prediction E sl 0).H_ = !![1, 0, 0, 0, 0; 0, 1, 0, 0, 0] := rfl
  have hS : lidarS (Prediction E sl 0) = !![89 / 400, 0; 0, 89 / 400] := by
    ext i j
    rw [lidarS_apply _ hH]
    fin_cases i <;> fin_cases j
    · show (Prediction E sl 0).P_ 0 0 + ((15 : ℝ) / 100) ^ 2 = 89 / 400
      rw [hP 0 0 (by decide) (by decide)]
      show (2 : ℝ) / 10 + (15 / 100) ^ 2 = 89 / 400
      norm_num
    · show (Prediction E sl 0).P_ 0 1 + (0 : ℝ) = 0
      rw [hP 0 1 (by decide) (by decide)]
      show (0 : ℝ) + 0 = 0
      norm_num
    · show (Prediction E sl 0).P_ 1 0 + (0 : ℝ) = 0
      rw [hP 1 0 (by decide) (by decide)]
      show (0 : ℝ) + 0 = 0
      norm_num
    · show (Prediction E sl 0).P_ 1 1 + ((15 : ℝ) / 100) ^ 2 = 89 / 400
      rw [hP 1 1 (by decide) (by decide)]
      show (2 : ℝ) / 10 + (15 / 100) ^ 2 = 89 / 400
      norm_num
  have hSi : E.inverse2 (lidarS (Prediction E sl 0)) = !![400 / 89, 0; 0, 400 / 89] := by
    show (lidarS (Prediction E sl 0))⁻¹ = _
    rw [hS]
    apply Matrix.inv_eq_right_inv
    ext i j
    fin_cases i <;> fin_cases j <;> simp [Matrix.mul_apply, Fin.sum_univ_two]
  have hel : elapsed sl ml = 0 := by
    simp [elapsed, sl, ml, UKF.construct]
  have hpm : ProcessMeasurement E sl ml = UpdateLidar E (Prediction E sl 0) ml := by
    rw [ProcessMeasurement_initialized E sl ml rfl, if_neg (by simp [ml]), hel]
    rfl
  have hx0 : (ProcessMeasurement E sl ml).x_ 0 = 809 / 890 := by
    rw [hpm, UpdateLidar_x_apply E _ ml hH, hSi, hx, hP 0 0 (by decide) (by decide),
      hP 0 1 (by decide) (by decide)]
    show (1 : ℝ) / 10 + ((2 / 10 * (400 / 89) + 0 * 0) * (1 - 1 / 10)
      + (2 / 10 * 0 + 0 * (400 / 89)) * (1 - 1 / 10)) = 809 / 890
    norm_num
  have hs0 : sl.x_ 0 = 1 / 10 := rfl
  have hrel : elapsed sr mr = 0 := by
    simp [elapsed, sr, mr, UKF.construct]
  refine ⟨⟨rfl, rfl, hs0, hx0, fun h => ?_⟩, rfl, rfl, ?_⟩
  · rw [h, hs0] at hx0
    norm_num at hx0
  · rw [ProcessMeasurement_initialized E sr mr rfl, if_pos (by simp [mr]), hrel]
    rfl

/-- C8. A disabled sensor at initialization, evaluated on the code.  On the
constructed, uninitialized filter with `use_laser_` cleared, the `LASER`
measurement `(1, 1)` marks the filter initialized but leaves `x_` at the
construction defaults, so `x_(0)` is `0.1` and not the measured `1`; with
`use_radar_` cleared the `RADAR` measurement `(1, 1, 1)` does the same, so
`x_(0)` is `0.1` and not `1 * cos 1`. -/
theorem C8_disabled_sensor_not_used_for_init :
    let E : Env ℝ := Env.mk Real.cos Real.sin Real.sqrt (fun y x => Complex.arg ⟨x, y⟩)
      Real.pi Real.pi_pos (fun M => M) (fun M => M) (fun M => M)
    let sl : UKF ℝ := { UKF.construct UKF.blank with use_laser_ := false }
    let sr : UKF ℝ := { UKF.construct UKF.blank with use_radar_ := false }
    let ml : MeasurementPackage ℝ := ⟨0, SensorType.LASER, ![1, 1, 0]⟩
    let mr : MeasurementPackage ℝ := ⟨0, SensorType.RADAR, ![1, 1, 1]⟩
    (sl.is_initialized_ = false ∧
      (ProcessMeasurement E sl ml).is_initialized_ = true ∧
      (ProcessMeasurement E sl ml).x_ = ![1 / 10, 1 / 10, 1 / 10, 1 / 10, 1 / 100] ∧
      (ProcessMeasurement E sl ml).x_ 0 ≠ ml.raw_measurements_ 0) ∧
    (sr.is_initialized_ = false ∧
      (ProcessMeasurement E sr mr).is_initialized_ = true ∧
      (ProcessMeasurement E sr mr).x_ = ![1 / 10, 1 / 10, 1 / 10, 1 / 10, 1 / 100] ∧
      (ProcessMeasurement E sr mr).x_ 0
        ≠ mr.raw_measurements_ 0 * Real.cos (mr.raw_measurements_ 1)) := by
  intro E sl sr ml mr
  have hl : ProcessMeasurement E sl ml = { sl with is_initialized_ := true, time_us_ := 0 } := by
    rw [ProcessMeasurement_first E sl ml rfl ⟨by simp [ml], by simp [ml]⟩,
      firstMeasurement_disabled E sl ml (Or.inr ⟨rfl, rfl⟩)]
  have hr : ProcessMeasurement E sr mr = { sr with is_initialized_ := true, time_us_ := 0 } := by
    rw [ProcessMeasurement_first E sr mr rfl ⟨by simp [mr], by simp [mr]⟩,
      firstMeasurement_disabled E sr mr (Or.inl ⟨rfl, rfl⟩)]
  have hc : (1 : ℝ) / 2 ≤ Real.cos 1 := by
    have := Real.one_sub_sq_div_two_le_cos (x := 1)
    linarith
  rw [hl, hr]
  refine ⟨⟨rfl, rfl, rfl, ?_⟩, rfl, rfl, rfl, ?_⟩
  · simp [sl, ml, UKF.construct]
  · simp only [sr, mr, UKF.construct]
    simp
    intro h
    linarith

/-- C9, refuted as stated.  From the initialized state with mean
`(0, 0, 0, 3, 1)`, whose heading `3` lies in `(-pi, pi]`, `Prediction(1)`
leaves the heading at `4`, outside `(-pi, pi]`; and `ProcessMeasurement` with
the `LASER` measurement `(0, 0)` one second after the reference time leaves the
heading at `4` as well.  The environment has the real functions, the diagonal
square root for `llt` and the matrix inverse for `inverse()`. -/
theorem C9_heading_leaves_range :
    let E : Env ℝ := Env.mk Real.cos Real.sin Real.sqrt (fun y x => Complex.arg ⟨x, y⟩)
      Real.pi Real.pi_pos (fun A => Matrix.diagonal fun i => Real.sqrt (A i i))
      (fun M => M⁻¹) (fun M => M⁻¹)
    let s : UKF ℝ :=
      { UKF.construct UKF.blank with is_initialized_ := true, x_ := ![0, 0, 0, 3, 1] }
    let m : MeasurementPackage ℝ := ⟨1000000, SensorType.LASER, ![0, 0, 0]⟩
    (s.is_initialized_ = true ∧ s.x_ 3 ∈ Set.Ioc (-Real.pi) Real.pi ∧ (0 : ℝ) ≤ 1) ∧
    ((Prediction E s 1).x_ 3 = 4 ∧ (Prediction E s 1).x_ 3 ∉ Set.Ioc (-Real.pi) Real.pi) ∧
    ((ProcessMeasurement E s m).x_ 3 = 4 ∧
      (ProcessMeasurement E s m).x_ 3 ∉ Set.Ioc (-Real.pi) Real.pi) := by
  intro E s m
  have hpi3 := Real.pi_gt_three
  have hpi4 := Real.pi_lt_four
  have hw : s.weights_ = weights n_aug_ (-4) := construct_weights (UKF.blank : UKF ℝ)
  have hout : (4 : ℝ) ∉ Set.Ioc (-Real.pi) Real.pi := fun h => by
    have := h.2
    linarith
  have hin : s.x_ 3 ∈ Set.Ioc (-Real.pi) Real.pi := by
    show (3 : ℝ) ∈ _
    constructor <;> linarith
  have hp : ∀ t : Int, (Prediction E ({ s with time_us_ := t } : UKF ℝ) 1).x_ 3 = 4 := by
    intro t
    rw [Prediction_heading E ({ s with time_us_ := t } : UKF ℝ) 1 hw]
    show (3 : ℝ) + 1 * 1 = 4
    norm_num
  have hp0 : (Prediction E s 1).x_ 3 = 4 := hp 0
  have hel : elapsed s m = 1 := by
    simp [elapsed, s, m, UKF.construct]
  have hpm : (ProcessMeasurement E s m).x_ 3 = 4 := by
    rw [ProcessMeasurement_initialized E s m rfl, if_neg (by simp [m]), hel]
    have hpos : ∀ r : Fin 5, r = 0 ∨ r = 1 →
        (Prediction E ({ s with time_us_ := m.timestamp_ } : UKF ℝ) 1).x_ r = 0 :=
      fun r hr => Prediction_position_origin E
        ({ s with time_us_ := m.timestamp_ } : UKF ℝ) 1 _ hw rfl rfl rfl rfl r hr
    have hy : lidarY (Prediction E ({ s with time_us_ := m.timestamp_ } : UKF ℝ) 1) m = 0 := by
      rw [lidarY_eq _ _ rfl, hpos 0 (Or.inl rfl), hpos 1 (Or.inr rfl)]
      funext i
      fin_cases i <;> simp [m]
    rw [UpdateLidar_x_of_innovation_zero E _ m hy]
    exact hp _
  refine ⟨⟨rfl, hin, by norm_num⟩, ⟨hp0, ?_⟩, hpm, ?_⟩
  · rw [hp0]; exact hout
  · rw [hpm]; exact hout

/-- C9, as amended.  For every filter carrying the constructor's weights and
every `delta_t`, `Prediction` sets the heading `x_(3)` to
`x_(3) + x_(4) * delta_t` without wrapping it; so the heading lies in
`(-pi, pi]` after `Prediction` exactly when `x_(3) + x_(4) * delta_t` does. -/
theorem C9_prediction_heading (E : Env ℝ) (s : UKF ℝ) (delta_t : ℝ)
    (hw : s.weights_ = (UKF.construct s).weights_) :
    (Prediction E s delta_t).x_ 3 = s.x_ 3 + s.x_ 4 * delta_t ∧
    ((Prediction E s delta_t).x_ 3 ∈ Set.Ioc (-Real.pi) Real.pi ↔
      s.x_ 3 + s.x_ 4 * delta_t ∈ Set.Ioc (-Real.pi) Real.pi) := by
  have h := Prediction_heading E s delta_t (hw.trans (construct_weights s))
  exact ⟨h, by rw [h]⟩

/-- C9 as amended, at the constructed filter and `delta_t = 1/10`. -/
theorem C9_prediction_heading_witness :
    let E : Env ℝ := Env.mk Real.cos Real.sin Real.sqrt (fun y x => Complex.arg ⟨x, y⟩)
      Real.pi Real.pi_pos (fun A => Matrix.diagonal fun i => Real.sqrt (A i i))
      (fun M => M⁻¹) (fun M => M⁻¹)
    let s : UKF ℝ := UKF.construct UKF.blank
    s.weights_ = (UKF.construct s).weights_ ∧
    (Prediction E s (1 / 10)).x_ 3 = s.x_ 3 + s.x_ 4 * (1 / 10) := by
  intro E s
  exact ⟨rfl, (C9_prediction_heading E s (1 / 10) rfl).1⟩

/-- C10. Covariance symmetry is preserved: the covariance produced by
`Prediction` is symmetric for every state and every `delta_t`; for every
symmetric prior `P_` (and symmetric measurement noise) the covariance
`(I - K H) P` left by `UpdateLidar` is symmetric whenever `inverse()` returns
an inverse of `S`, and the covariance `P - K S Kᵀ` left by `UpdateRadar` is
symmetric. -/
theorem C10_covariance_symmetric [FloorRing F] (E : Env F) (s : UKF F)
    (m : MeasurementPackage F) (delta_t : F) :
    (Prediction E s delta_t).P_.IsSymm ∧
    (s.P_.IsSymm → s.R_lidar_.IsSymm → lidarS s * E.inverse2 (lidarS s) = 1 →
      (UpdateLidar E s m).P_.IsSymm) ∧
    (s.P_.IsSymm → s.R_radar_.IsSymm → (UpdateRadar E s m).P_.IsSymm) :=
  ⟨Prediction_isSymm E s delta_t, fun hP hR hS => UpdateLidar_isSymm E s m hP hR hS,
    fun hP hR => UpdateRadar_isSymm E s m hP hR⟩

/-- C10, at the constructed filter with the matrix inverse for `inverse()`. -/
theorem C10_covariance_symmetric_witness :
    let E : Env ℝ := Env.mk Real.cos Real.sin Real.sqrt (fun y x => Complex.arg ⟨x, y⟩)
      Real.pi Real.pi_pos (fun M => M) (fun M => M⁻¹) (fun M => M⁻¹)
    let s : UKF ℝ := UKF.construct UKF.blank
    let m : MeasurementPackage ℝ := ⟨100000, SensorType.LASER, ![1, 1, 0]⟩
    (s.P_.IsSymm ∧ s.R_lidar_.IsSymm ∧ s.R_radar_.IsSymm ∧
      lidarS s * E.inverse2 (lidarS s) = 1) ∧
    (Prediction E s (1 / 10)).P_.IsSymm ∧ (UpdateLidar E s m).P_.IsSymm ∧
    (UpdateRadar E s m).P_.IsSymm := by
  intro E s m
  have hP : s.P_.IsSymm := construct_P_isSymm _
  have hRl : s.R_lidar_.IsSymm := construct_R_lidar_isSymm _
  have hRr : s.R_radar_.IsSymm := construct_R_radar_isSymm _
  have hS : lidarS s * E.inverse2 (lidarS s) = 1 := by
    show lidarS s * (lidarS s)⁻¹ = 1
    apply Matrix.mul_nonsing_inv
    rw [construct_lidarS, Matrix.det_fin_two_of]
    norm_num
  have h := C10_covariance_symmetric E s m (1 / 10)
  exact ⟨⟨hP, hRl, hRr, hS⟩, h.1, h.2.1 hP hRl hS, h.2.2 hP hRr⟩

/-- C11. Positive semi-definiteness is preserved by the position-sensor
update: for every symmetric positive semi-definite prior `P_`, with the
constructor's `R_lidar_ = diag(0.15^2, 0.15^2)` (and any `H_`, the
constructor's included) and `inverse()` the matrix inverse, the innovation
covariance `S` is invertible and for every measurement the covariance
`(I - K H) P` left by `UpdateLidar` is positive semi-definite: it is
symmetric with all eigenvalues non-negative. -/
theorem C11_lidar_update_posSemidef (E : Env ℝ) (s : UKF ℝ) (m : MeasurementPackage ℝ)
    (hP : s.P_.PosSemidef) (hR : s.R_lidar_ = (UKF.construct s).R_lidar_)
    (hinv : E.inverse2 (lidarS s) = (lidarS s)⁻¹) :
    (lidarS s).det ≠ 0 ∧
    (UpdateLidar E s m).P_.PosSemidef ∧
    (UpdateLidar E s m).P_.IsSymm ∧
    ∀ (h : (UpdateLidar E s m).P_.IsHermitian) (i : Fin 5), 0 ≤ h.eigenvalues i := by
  have hS := lidarS_mul_inv s hP hR
  have hSi : lidarS s * E.inverse2 (lidarS s) = 1 := by rw [hinv]; exact hS.2
  have hRp : s.R_lidar_.PosSemidef := (hR ▸ construct_R_lidar_posDef s).posSemidef
  have hpsd := UpdateLidar_posSemidef E s m hP hRp hSi
  refine ⟨hS.1, hpsd, ?_, fun _ i => hpsd.eigenvalues_nonneg i⟩
  have := hpsd.1
  rwa [Matrix.IsHermitian, Matrix.conjTranspose_eq_transpose_of_trivial] at this

/-- C11, at the constructed filter with the matrix inverse for
`inverse()`. -/
theorem C11_lidar_update_posSemidef_witness :
    let E : Env ℝ := Env.mk Real.cos Real.sin Real.sqrt (fun y x => Complex.arg ⟨x, y⟩)
      Real.pi Real.pi_pos (fun A => Matrix.diagonal fun i => Real.sqrt (A i i))
      (fun M => M⁻¹) (fun M => M⁻¹)
    let s : UKF ℝ := UKF.construct UKF.blank
    let m : MeasurementPackage ℝ := ⟨0, SensorType.LASER, ![1, 1, 0]⟩
    s.P_.PosSemidef ∧ (lidarS s).det ≠ 0 ∧ (UpdateLidar E s m).P_.PosSemidef := by
  intro E s m
  have hP : s.P_.PosSemidef := construct_P_posSemidef UKF.blank
  have h := C11_lidar_update_posSemidef E s m hP rfl rfl
  exact ⟨hP, h.1, h.2.1⟩

/-- C12, refuted as stated.  The initialized filter with mean
`(0, 0, 0, 3, 1)` and reference time `1000000` receives the `LASER`
measurement `(0, 0)` with the earlier timestamp `0`: the elapsed time is
`-1`, the measurement is processed, the heading moves from `3` to `2` and the
reference time is set back to `0`.  The environment has the real functions,
the diagonal square root for `llt` and the matrix inverse for `inverse()`. -/
theorem C12_out_of_order_processed :
    let E : Env ℝ := Env.mk Real.cos Real.sin Real.sqrt (fun y x => Complex.arg ⟨x, y⟩)
      Real.pi Real.pi_pos (fun A => Matrix.diagonal fun i => Real.sqrt (A i i))
      (fun M => M⁻¹) (fun M => M⁻¹)
    let s : UKF ℝ :=
      { UKF.construct UKF.blank with
        is_initialized_ := true, x_ := ![0, 0, 0, 3, 1], time_us_ := 1000000 }
    let m : MeasurementPackage ℝ := ⟨0, SensorType.LASER, ![0, 0, 0]⟩
    (s.is_initialized_ = true ∧ m.timestamp_ < s.time_us_ ∧ elapsed s m = -1) ∧
    s.x_ 3 = 3 ∧ (ProcessMeasurement E s m).x_ 3 = 2 ∧
    (ProcessMeasurement E s m).x_ ≠ s.x_ ∧
    (ProcessMeasurement E s m).time_us_ = 0 := by
  intro E s m
  have hel : elapsed s m = -1 := by
    simp [elapsed, s, m]
  have hw : s.weights_ = weights n_aug_ (-4) := construct_weights (UKF.blank : UKF ℝ)
  have hx : (ProcessMeasurement E s m).x_ 3 = 2 := by
    rw [ProcessMeasurement_heading_origin E s m _ rfl rfl hw rfl rfl rfl rfl rfl rfl rfl, hel]
    show (3 : ℝ) + 1 * -1 = 2
    norm_num
  have h3 : s.x_ 3 = 3 := rfl
  refine ⟨⟨rfl, by decide, hel⟩, h3, hx, fun h => ?_, ProcessMeasurement_time E s m rfl⟩
  rw [h, h3] at hx
  norm_num at hx

/-- C12, as amended.  `ProcessMeasurement` makes no timestamp check: for every
initialized filter and every measurement whose timestamp is smaller than
`time_us_`, the elapsed time is negative, `time_us_` is set to the
measurement timestamp, and `Prediction` over that negative time followed by
the update of the measurement's sensor type is what the call returns. -/
theorem C12_out_of_order_behaviour [FloorRing F] (E : Env F) (s : UKF F)
    (m : MeasurementPackage F) (hs : s.is_initialized_ = true)
    (ht : m.timestamp_ < s.time_us_) :
    elapsed s m < 0 ∧
    (ProcessMeasurement E s m).time_us_ = m.timestamp_ ∧
    ProcessMeasurement E s m =
      (if m.sensor_type_ = SensorType.RADAR then
        UpdateRadar E (Prediction E ({ s with time_us_ := m.timestamp_ } : UKF F) (elapsed s m)) m
      else
        UpdateLidar E (Prediction E ({ s with time_us_ := m.timestamp_ } : UKF F) (elapsed s m))
          m) :=
  ⟨elapsed_neg s m ht, ProcessMeasurement_time E s m hs, ProcessMeasurement_initialized E s m hs⟩

/-- C12 as amended, at the constructed filter with reference time `1000000`
and a `LASER` measurement stamped `0`. -/
theorem C12_out_of_order_behaviour_witness :
    let E : Env ℝ := Env.mk Real.cos Real.sin Real.sqrt (fun y x => Complex.arg ⟨x, y⟩)
      Real.pi Real.pi_pos (fun A => Matrix.diagonal fun i => Real.sqrt (A i i))
      (fun M => M⁻¹) (fun M => M⁻¹)
    let s : UKF ℝ :=
      { UKF.construct UKF.blank with is_initialized_ := true, time_us_ := 1000000 }
    let m : MeasurementPackage ℝ := ⟨0, SensorType.LASER, ![1, 1, 0]⟩
    s.is_initialized_ = true ∧ m.timestamp_ < s.time_us_ ∧
    elapsed s m < 0 ∧ (ProcessMeasurement E s m).time_us_ = 0 := by
  intro E s m
  have h := C12_out_of_order_behaviour E s m rfl (by decide)
  exact ⟨rfl, by decide, h.1, h.2.1⟩

/-- C13, refuted as stated.  The initialized filter with `P_ = -1` has an
augmented covariance with no factor `L`, `L * Lᵀ = P_aug` (its first diagonal
entry is negative), so the Cholesky step of `Prediction` fails; yet for every
environment the call with a measurement stamped `1000000` changes `time_us_`
from `0` to `1000000`. -/
theorem C13_failure_mutates_state :
    let s : UKF ℝ := { UKF.construct UKF.blank with is_initialized_ := true, P_ := -1 }
    let m : MeasurementPackage ℝ := ⟨1000000, SensorType.LASER, ![1, 1, 0]⟩
    s.is_initialized_ = true ∧
    (¬ ∃ L : Matrix (Fin 7) (Fin 7) ℝ, L * Lᵀ = P_aug s) ∧
    s.time_us_ = 0 ∧
    ∀ E : Env ℝ, (ProcessMeasurement E s m).time_us_ = 1000000 ∧
      (ProcessMeasurement E s m).time_us_ ≠ s.time_us_ := by
  intro s m
  have hno : ¬ ∃ L : Matrix (Fin 7) (Fin 7) ℝ, L * Lᵀ = P_aug s := by
    rintro ⟨L, hL⟩
    have h00 : (L * Lᵀ) 0 0 = -1 := by
      rw [hL]
      have := P_aug_state s 0 0
      rw [show P_aug s 0 0 = s.P_ 0 0 from this]
      show (-1 : Matrix (Fin 5) (Fin 5) ℝ) 0 0 = -1
      simp
    have hnn : 0 ≤ (L * Lᵀ) 0 0 := by
      rw [Matrix.mul_apply]
      exact Finset.sum_nonneg fun k _ => by
        rw [Matrix.transpose_apply]; exact mul_self_nonneg _
    linarith
  have ht : ∀ E : Env ℝ, (ProcessMeasurement E s m).time_us_ = 1000000 :=
    fun E => ProcessMeasurement_time E s m rfl
  refine ⟨rfl, hno, rfl, fun E => ⟨ht E, ?_⟩⟩
  rw [ht E]
  show (1000000 : Int) ≠ 0
  decide

/-- C13, as amended.  `ProcessMeasurement` has no failure detection and no
rollback: for every initialized filter and every measurement, whether or not
the augmented covariance has a Cholesky factor or `S` is invertible, the call
sets `time_us_` to the measurement timestamp, stores the sigma points that
`Prediction` computes from whatever `llt` returns, and returns the update of
that prediction; of the members named by the claim only the NIS value of the
other sensor is certain to be as before the call. -/
theorem C13_no_rollback [FloorRing F] (E : Env F) (s : UKF F) (m : MeasurementPackage F)
    (hs : s.is_initialized_ = true) :
    (ProcessMeasurement E s m).time_us_ = m.timestamp_ ∧
    (ProcessMeasurement E s m).Xsig_pred_ = (Prediction E s (elapsed s m)).Xsig_pred_ ∧
    (m.sensor_type_ = SensorType.LASER →
      (ProcessMeasurement E s m).NIS_radar_ = s.NIS_radar_) ∧
    (m.sensor_type_ = SensorType.RADAR →
      (ProcessMeasurement E s m).NIS_laser_ = s.NIS_laser_) ∧
    ProcessMeasurement E s m =
      (if m.sensor_type_ = SensorType.RADAR then
        UpdateRadar E (Prediction E ({ s with time_us_ := m.timestamp_ } : UKF F) (elapsed s m)) m
      else
        UpdateLidar E (Prediction E ({ s with time_us_ := m.timestamp_ } : UKF F) (elapsed s m))
          m) :=
  ⟨ProcessMeasurement_time E s m hs, ProcessMeasurement_Xsig E s m hs,
    ProcessMeasurement_NIS_radar E s m hs, ProcessMeasurement_NIS_laser E s m hs,
    ProcessMeasurement_initialized E s m hs⟩

/-- C13 as amended, at the initialized filter with `P_ = -1`. -/
theorem C13_no_rollback_witness :
    let E : Env ℝ := Env.mk Real.cos Real.sin Real.sqrt (fun y x => Complex.arg ⟨x, y⟩)
      Real.pi Real.pi_pos (fun A => Matrix.diagonal fun i => Real.sqrt (A i i))
      (fun M => M⁻¹) (fun M => M⁻¹)
    let s : UKF ℝ := { UKF.construct UKF.blank with is_initialized_ := true, P_ := -1 }
    let m : MeasurementPackage ℝ := ⟨1000000, SensorType.LASER, ![1, 1, 0]⟩
    s.is_initialized_ = true ∧
    (ProcessMeasurement E s m).time_us_ = 1000000 ∧
    (ProcessMeasurement E s m).NIS_radar_ = 0 := by
  intro E s m
  have h := C13_no_rollback E s m rfl
  exact ⟨rfl, h.1, h.2.2.1 rfl⟩

/-- C14, refuted as stated.  The input `-pi` passes both loops untouched
(neither `-pi > pi` nor `-pi < -pi` holds), so the normalisation returns
`-pi`, which lies outside the half-open interval `(-pi, pi]`. -/
theorem C14_normalize_neg_pi :
    let E : Env ℝ := Env.mk Real.cos Real.sin Real.sqrt (fun y x => Complex.arg ⟨x, y⟩)
      Real.pi Real.pi_pos (fun M => M) (fun M => M) (fun M => M)
    normalize E (-Real.pi) = -Real.pi ∧
    normalize E (-Real.pi) ∉ Set.Ioc (-Real.pi) Real.pi := by
  intro E
  have h : normalize E (-Real.pi) = -Real.pi :=
    normalize_of_mem_Icc E (-Real.pi)
      ⟨le_refl _, by have := Real.pi_pos; show -Real.pi ≤ Real.pi; linarith⟩
  refine ⟨h, fun hm => ?_⟩
  rw [h] at hm
  exact lt_irrefl _ hm.1

/-- C14, as amended.  With doubles read as exact reals the normalisation
exits for every input: from some fuel on, the two loops run with bounded fuel
return the value of `normalize`.  That value lies in the closed interval
`[-pi, pi]` and differs from the input by an integer multiple of `2 * pi`; it
lies in `(-pi, pi]` except for the inputs `-pi - k * (2 * pi)`,
`k = 0, 1, 2, ...`, for which it is `-pi`.  Termination does not extend to
machine arithmetic: under a subtraction that absorbs `2 * pi` at an input
above `pi`, or an addition that absorbs `2 * pi` at an input below `-pi`, the
loops return under no fuel. -/
theorem C14_normalize_range [FloorRing F] (E : Env F) (a : F) :
    (∃ n : Nat, ∀ fuel : Nat, n ≤ fuel →
      normalizeFuel (fun x y => x - y) (fun x y => x + y) E.M_PI fuel a
        = some (normalize E a)) ∧
    normalize E a ∈ Set.Icc (-E.M_PI) E.M_PI ∧
    (∃ k : Int, normalize E a = a + (k : F) * (2 * E.M_PI)) ∧
    (normalize E a ∈ Set.Ioc (-E.M_PI) E.M_PI ↔
      ¬ ∃ k : Nat, a = -E.M_PI - (k : F) * (2 * E.M_PI)) ∧
    ((∃ k : Nat, a = -E.M_PI - (k : F) * (2 * E.M_PI)) → normalize E a = -E.M_PI) ∧
    (∀ sub add : F → F → F, E.M_PI < a → sub a (2 * E.M_PI) = a →
      ∀ fuel : Nat, normalizeFuel sub add E.M_PI fuel a = none) ∧
    (∀ sub add : F → F → F, a < -E.M_PI → add a (2 * E.M_PI) = a →
      ∀ fuel : Nat, normalizeFuel sub add E.M_PI fuel a = none) := by
  have hI := normalize_mem_Icc E a
  refine ⟨normalizeFuel_exact E a, hI, normalize_multiple E a, ?_,
    (normalize_eq_neg_iff E a).mpr,
    fun sub add hlt habs fuel => normalizeFuel_absorb_down sub add E.M_PI a hlt habs fuel,
    fun sub add hlt habs fuel =>
      normalizeFuel_absorb_up sub add E.M_PI a E.M_PI_pos hlt habs fuel⟩
  rw [← normalize_eq_neg_iff]
  constructor
  · intro h he
    rw [he] at h
    exact lt_irrefl _ h.1
  · intro h
    exact ⟨lt_of_le_of_ne hI.1 (Ne.symm h), hI.2⟩

/-- C14 as amended, at the input `-3 * pi = -pi - 1 * (2 * pi)`; at the input
`100` with a subtraction that leaves every value from `100` upwards
unchanged; and at the input `-100` with an addition that leaves every value
from `-100` downwards unchanged. -/
theorem C14_normalize_range_witness :
    let E : Env ℝ := Env.mk Real.cos Real.sin Real.sqrt (fun y x => Complex.arg ⟨x, y⟩)
      Real.pi Real.pi_pos (fun M => M) (fun M => M) (fun M => M)
    let sub : ℝ → ℝ → ℝ := fun x y => if 100 ≤ x then x else x - y
    let add : ℝ → ℝ → ℝ := fun x y => if x ≤ -100 then x else x + y
    ((∃ k : Nat, -Real.pi - (1 : Nat) * (2 * Real.pi) = -E.M_PI - (k : ℝ) * (2 * E.M_PI)) ∧
      normalize E (-Real.pi - (1 : Nat) * (2 * Real.pi)) = -E.M_PI) ∧
    ((E.M_PI < 100 ∧ sub 100 (2 * E.M_PI) = 100) ∧
      (∀ fuel : Nat, normalizeFuel sub add E.M_PI fuel 100 = none) ∧
      ∃ n : Nat, ∀ fuel : Nat, n ≤ fuel →
        normalizeFuel (fun x y => x - y) (fun x y => x + y) E.M_PI fuel 100
          = some (normalize E 100)) ∧
    ((-100 < -E.M_PI ∧ add (-100) (2 * E.M_PI) = -100) ∧
      ∀ fuel : Nat, normalizeFuel sub add E.M_PI fuel (-100) = none) := by
  intro E sub add
  have hpi : Real.pi < 4 := Real.pi_lt_four
  have hk : ∃ k : Nat,
      -Real.pi - (1 : Nat) * (2 * Real.pi) = -E.M_PI - (k : ℝ) * (2 * E.M_PI) := ⟨1, rfl⟩
  have hlt : E.M_PI < 100 := by
    show Real.pi < 100
    linarith
  have hgt : (-100 : ℝ) < -E.M_PI := by
    show (-100 : ℝ) < -Real.pi
    linarith
  have hsub : sub 100 (2 * E.M_PI) = 100 := by simp [sub]
  have hadd : add (-100) (2 * E.M_PI) = -100 := by simp [add]
  have h100 := C14_normalize_range E (100 : ℝ)
  exact ⟨⟨hk, (C14_normalize_range E (-Real.pi - (1 : Nat) * (2 * Real.pi))).2.2.2.2.1 hk⟩,
    ⟨⟨hlt, hsub⟩, h100.2.2.2.2.2.1 sub add hlt hsub, h100.1⟩,
    ⟨hgt, hadd⟩, (C14_normalize_range E (-100 : ℝ)).2.2.2.2.2.2 sub add hgt hadd⟩

/-- C15. Angle normalisation is idempotent: `normalize (normalize a)` is
`normalize a` for every `a`, and `normalize a = a` for every `a` already in
`(-pi, pi]`. -/
theorem C15_normalize_idempotent [FloorRing F] (E : Env F) (a : F) :
    normalize E (normalize E a) = normalize E a ∧
    (a ∈ Set.Ioc (-E.M_PI) E.M_PI → normalize E a = a) :=
  ⟨normalize_of_mem_Icc E _ (normalize_mem_Icc E a),
    fun h => normalize_of_mem_Icc E a ⟨h.1.le, h.2⟩⟩

/-- C15, at the angles `10` and `1` with `M_PI` the real `pi`. -/
theorem C15_normalize_idempotent_witness :
    let E : Env ℝ := Env.mk Real.cos Real.sin Real.sqrt (fun y x => Complex.arg ⟨x, y⟩)
      Real.pi Real.pi_pos (fun M => M) (fun M => M) (fun M => M)
    normalize E (normalize E 10) = normalize E 10 ∧
    (1 : ℝ) ∈ Set.Ioc (-Real.pi) Real.pi ∧ normalize E 1 = 1 := by
  intro E
  have h1 : (1 : ℝ) ∈ Set.Ioc (-E.M_PI) E.M_PI := by
    have := Real.pi_gt_three
    constructor
    · show -Real.pi < 1
      linarith
    · show (1 : ℝ) ≤ Real.pi
      linarith
  exact ⟨(C15_normalize_idempotent E 10).1, h1, (C15_normalize_idempotent E 1).2 h1⟩

/-- C16. CTRV propagation of one sigma point: for every augmented sigma
point `c = (x, y, v, psi, psid, nu_a, nu_psidd)` and every `delta_t` the
column written by `Prediction` is `(x', y', v', psi', psid')` with
`v' = v + delta_t * nu_a`, `psi' = psi + psid * delta_t + 0.5 * delta_t^2 * nu_psidd`,
`psid' = psid + delta_t * nu_psidd`, and the position taken from the turning
formula when `|psid| > 0.001` and from the straight-line formula otherwise;
the division by `psid` is evaluated only under that guard, where `psid ≠ 0`,
so the loop body with checked divisions never fails. -/
theorem C16_ctrv_column [FloorRing F] (E : Env F) (s : UKF F) (delta_t : F) :
    (∀ c : Fin 7 → F,
      predictColumn E delta_t c =
        ![c 0 + (if |c 4| > 1 / 1000 then
                  c 2 / c 4 * (E.sin (c 3 + c 4 * delta_t) - E.sin (c 3))
                else c 2 * delta_t * E.cos (c 3))
            + 1 / 2 * c 5 * delta_t ^ 2 * E.cos (c 3),
          c 1 + (if |c 4| > 1 / 1000 then
                  c 2 / c 4 * (E.cos (c 3) - E.cos (c 3 + c 4 * delta_t))
                else c 2 * delta_t * E.sin (c 3))
            + 1 / 2 * c 5 * delta_t ^ 2 * E.sin (c 3),
          c 2 + delta_t * c 5,
          c 3 + c 4 * delta_t + 1 / 2 * delta_t ^ 2 * c 6,
          c 4 + delta_t * c 6]) ∧
    (∀ (r : Fin 5) (i : Fin 15),
      (Prediction E s delta_t).Xsig_pred_ r i
        = predictColumn E delta_t (fun k => Xsig_aug E s k i) r) ∧
    (∀ c : Fin 7 → F,
      predictColumnChecked E delta_t c = some (predictColumn E delta_t c)) ∧
    (∀ c : Fin 7 → F, |c 4| > 1 / 1000 → c 4 ≠ 0) :=
  ⟨fun c => predictColumn_eq E delta_t c, fun _ _ => rfl,
    fun c => predictColumnChecked_eq E delta_t c, fun c h => yawd_ne_zero_of_guard (c 4) h⟩

/-- C16, at the sigma point `(1, 2, 3, 0, 1/2, 0, 0)`, whose turn rate
passes the guard. -/
theorem C16_ctrv_column_witness :
    let E : Env ℝ := Env.mk Real.cos Real.sin Real.sqrt (fun y x => Complex.arg ⟨x, y⟩)
      Real.pi Real.pi_pos (fun M => M) (fun M => M) (fun M => M)
    let c : Fin 7 → ℝ := ![1, 2, 3, 0, 1 / 2, 0, 0]
    |c 4| > 1 / 1000 ∧ c 4 ≠ 0 ∧
    predictColumnChecked E 1 c = some (predictColumn E 1 c) := by
  intro E c
  have h : |c 4| > 1 / 1000 := by
    show |(1 : ℝ) / 2| > 1 / 1000
    rw [abs_of_pos (by norm_num)]
    norm_num
  have hC := C16_ctrv_column E (UKF.construct UKF.blank) 1
  exact ⟨h, hC.2.2.2 c h, hC.2.2.1 c⟩

/-- C17. Zero-turn-rate consistency of the two motion-model branches: with
the real sine and cosine, for every `v`, `psi` and `delta_t`, as `psid` tends
to `0` through nonzero values the turning increments
`(v / psid) * (sin(psi + psid * delta_t) - sin(psi))` and
`(v / psid) * (cos(psi) - cos(psi + psid * delta_t))` of `Prediction` tend to
the straight-line increments `v * delta_t * cos(psi)` and
`v * delta_t * sin(psi)`; these are the two alternatives that the position
update of a sigma point chooses between. -/
theorem C17_turn_rate_limit (E : Env ℝ) (delta_t v yaw : ℝ)
    (hsin : E.sin = Real.sin) (hcos : E.cos = Real.cos) :
    Filter.Tendsto (fun yawd => (ctrvTurn E delta_t v yaw yawd).1)
      (nhdsWithin 0 {0}ᶜ) (nhds (ctrvStraight E delta_t v yaw).1) ∧
    Filter.Tendsto (fun yawd => (ctrvTurn E delta_t v yaw yawd).2)
      (nhdsWithin 0 {0}ᶜ) (nhds (ctrvStraight E delta_t v yaw).2) ∧
    (∀ c : Fin 7 → ℝ,
      predictColumn E delta_t c 0
          = c 0 + (if |c 4| > 1 / 1000 then (ctrvTurn E delta_t (c 2) (c 3) (c 4)).1
                   else (ctrvStraight E delta_t (c 2) (c 3)).1)
            + 1 / 2 * c 5 * delta_t * delta_t * E.cos (c 3) ∧
      predictColumn E delta_t c 1
          = c 1 + (if |c 4| > 1 / 1000 then (ctrvTurn E delta_t (c 2) (c 3) (c 4)).2
                   else (ctrvStraight E delta_t (c 2) (c 3)).2)
            + 1 / 2 * c 5 * delta_t * delta_t * E.sin (c 3)) := by
  refine ⟨?_, ?_, fun c => predictColumn_position E delta_t c⟩
  · simp only [ctrvTurn, ctrvStraight, hsin, hcos]
    exact turn_x_tendsto delta_t v yaw
  · simp only [ctrvTurn, ctrvStraight, hsin, hcos]
    exact turn_y_tendsto delta_t v yaw

/-- C17, at `v = 1`, `psi = 0`, `delta_t = 1` with the real sine and
cosine. -/
theorem C17_turn_rate_limit_witness :
    let E : Env ℝ := Env.mk Real.cos Real.sin Real.sqrt (fun y x => Complex.arg ⟨x, y⟩)
      Real.pi Real.pi_pos (fun M => M) (fun M => M) (fun M => M)
    E.sin = Real.sin ∧ E.cos = Real.cos ∧
    Filter.Tendsto (fun yawd => (ctrvTurn E 1 1 0 yawd).1)
      (nhdsWithin 0 {0}ᶜ) (nhds (ctrvStraight E 1 1 0).1) := by
  intro E
  exact ⟨rfl, rfl, (C17_turn_rate_limit E 1 1 0 rfl rfl).1⟩

/-- C18. The position-sensor update never increases uncertainty: for every
symmetric positive semi-definite prior `P_`, with the constructor's
`R_lidar_` (and any `H_`, the constructor's included) and `inverse()` the
matrix inverse, for every measurement the trace of the covariance left by
`UpdateLidar` is at most the trace of the prior covariance. -/
theorem C18_lidar_trace_le (E : Env ℝ) (s : UKF ℝ) (m : MeasurementPackage ℝ)
    (hP : s.P_.PosSemidef) (hR : s.R_lidar_ = (UKF.construct s).R_lidar_)
    (hinv : E.inverse2 (lidarS s) = (lidarS s)⁻¹) :
    (UpdateLidar E s m).P_.trace ≤ s.P_.trace := by
  have hSi : lidarS s * E.inverse2 (lidarS s) = 1 := by
    rw [hinv]; exact (lidarS_mul_inv s hP hR).2
  have hRp : s.R_lidar_.PosSemidef := (hR ▸ construct_R_lidar_posDef s).posSemidef
  exact UpdateLidar_trace_le E s m hP hRp hSi

/-- C18, at the constructed filter with the matrix inverse for
`inverse()`. -/
theorem C18_lidar_trace_le_witness :
    let E : Env ℝ := Env.mk Real.cos Real.sin Real.sqrt (fun y x => Complex.arg ⟨x, y⟩)
      Real.pi Real.pi_pos (fun A => Matrix.diagonal fun i => Real.sqrt (A i i))
      (fun M => M⁻¹) (fun M => M⁻¹)
    let s : UKF ℝ := UKF.construct UKF.blank
    let m : MeasurementPackage ℝ := ⟨0, SensorType.LASER, ![1, 1, 0]⟩
    s.P_.PosSemidef ∧ (UpdateLidar E s m).P_.trace ≤ s.P_.trace := by
  intro E s m
  have hP : s.P_.PosSemidef := construct_P_posSemidef UKF.blank
  exact ⟨hP, C18_lidar_trace_le E s m hP rfl rfl⟩

/-- C19. Prediction over zero elapsed time is the identity on the belief: with
the constructor's weights and spreading parameter, the real square root and
`M_PI = pi`, `Prediction(0)` leaves `x_` unchanged and stores as `Xsig_pred_`
the first five rows of the augmented sigma points; when `llt` returns a
factor `L` of the augmented covariance, `L * Lᵀ = P_aug`, and every heading
offset is within the normalisation range, `sqrt(3) * |L(3, i)| ≤ pi` for all
`i`, it leaves `P_` unchanged as well. -/
theorem C19_prediction_zero (E : Env ℝ) (s : UKF ℝ)
    (hsqrt : E.sqrt = Real.sqrt) (hpi : E.M_PI = Real.pi)
    (hw : s.weights_ = (UKF.construct s).weights_)
    (hl : s.lambda_ = (UKF.construct s).lambda_) :
    (Prediction E s 0).x_ = s.x_ ∧
    (∀ (r : Fin 5) (i : Fin 15),
      (Prediction E s 0).Xsig_pred_ r i = Xsig_aug E s (Fin.castLE (by decide) r) i) ∧
    (E.llt (P_aug s) * (E.llt (P_aug s))ᵀ = P_aug s →
      (∀ i : Fin 7, Real.sqrt 3 * |E.llt (P_aug s) 3 i| ≤ Real.pi) →
      (Prediction E s 0).P_ = s.P_) := by
  have hw4 : s.weights_ = weights n_aug_ (-4) := hw.trans (construct_weights s)
  have hl4 : s.lambda_ = -4 := hl.trans (construct_lambda s)
  have h3 : (-4 : ℝ) + 7 = 3 := by norm_num
  refine ⟨Prediction_zero_x E s hw4, fun r i => Prediction_zero_Xsig E s r i, fun hL hb => ?_⟩
  apply Prediction_zero_P E s hw4 hl4
  · rw [hsqrt]; exact Real.sqrt_nonneg _
  · rw [hsqrt]; exact Real.mul_self_sqrt (by norm_num)
  · exact hL
  · intro k
    rw [hsqrt, hpi, h3]
    exact hb k

/-- C19, at the constructed filter with the diagonal square root for
`llt`. -/
theorem C19_prediction_zero_witness :
    let E : Env ℝ := Env.mk Real.cos Real.sin Real.sqrt (fun y x => Complex.arg ⟨x, y⟩)
      Real.pi Real.pi_pos (fun A => Matrix.diagonal fun i => Real.sqrt (A i i))
      (fun M => M⁻¹) (fun M => M⁻¹)
    let s : UKF ℝ := UKF.construct UKF.blank
    (E.llt (P_aug s) * (E.llt (P_aug s))ᵀ = P_aug s ∧
      ∀ i : Fin 7, Real.sqrt 3 * |E.llt (P_aug s) 3 i| ≤ Real.pi) ∧
    (Prediction E s 0).x_ = s.x_ ∧ (Prediction E s 0).P_ = s.P_ := by
  intro E s
  have hL : E.llt (P_aug s) * (E.llt (P_aug s))ᵀ = P_aug s :=
    construct_diagonal_sqrt (UKF.blank : UKF ℝ)
  have hb : ∀ i : Fin 7, Real.sqrt 3 * |E.llt (P_aug s) 3 i| ≤ Real.pi := by
    intro i
    have hpi := Real.pi_gt_three
    have h3 : Real.sqrt 3 ≤ 2 := by
      rw [Real.sqrt_le_left (by norm_num)]
      norm_num
    have h30 : (0 : ℝ) ≤ Real.sqrt 3 := Real.sqrt_nonneg _
    have hd : |E.llt (P_aug s) 3 i| ≤ 1 := by
      show |Matrix.diagonal (fun j => Real.sqrt (P_aug s j j)) 3 i| ≤ 1
      by_cases h : (3 : Fin 7) = i
      · subst h
        rw [Matrix.diagonal_apply_eq, abs_of_nonneg (Real.sqrt_nonneg _)]
        rw [Real.sqrt_le_left (by norm_num)]
        show (3 : ℝ) / 10 ≤ 1 ^ 2
        norm_num
      · rw [Matrix.diagonal_apply_ne _ h, abs_zero]
        norm_num
    nlinarith [abs_nonneg (E.llt (P_aug s) 3 i)]
  have h := C19_prediction_zero E s rfl rfl rfl rfl
  exact ⟨⟨hL, hb⟩, h.1, h.2.2 hL hb⟩

/-- C20. The radar measurement transform has an unguarded denominator: the
range rate of a sigma point is
`(p_x * v * cos(yaw) + p_y * v * sin(yaw)) / sqrt(p_x^2 + p_y^2)`; with the
real square root the denominator is strictly positive if and only if
`(p_x, p_y) ≠ (0, 0)`; the transform with its division checked succeeds on
every column of `Xsig_pred_` exactly when no predicted sigma point sits at
the position origin; and for a sigma point with `p_x = p_y = 0` the divisor is
zero and the checked transform fails. -/
theorem C20_radar_denominator (E : Env ℝ) (s : UKF ℝ) (hsqrt : E.sqrt = Real.sqrt) :
    (∀ (r : Fin 3) (i : Fin 15),
      Zsig E s r i = measureColumn E (fun k => s.Xsig_pred_ k i) r) ∧
    (∀ c : Fin 5 → ℝ,
      measureColumn E c 2
        = (c 0 * c 2 * E.cos (c 3) + c 1 * c 2 * E.sin (c 3)) / E.sqrt (c 0 ^ 2 + c 1 ^ 2)) ∧
    (∀ c : Fin 5 → ℝ, 0 < E.sqrt (c 0 ^ 2 + c 1 ^ 2) ↔ ¬ (c 0 = 0 ∧ c 1 = 0)) ∧
    (∀ c : Fin 5 → ℝ, ¬ (c 0 = 0 ∧ c 1 = 0) →
      measureColumnChecked E c = some (measureColumn E c)) ∧
    ((∀ i : Fin 15, measureColumnChecked E (fun k => s.Xsig_pred_ k i) ≠ none) ↔
      ∀ i : Fin 15, ¬ (s.Xsig_pred_ 0 i = 0 ∧ s.Xsig_pred_ 1 i = 0)) ∧
    (∀ c : Fin 5 → ℝ, c 0 = 0 → c 1 = 0 →
      E.sqrt (c 0 ^ 2 + c 1 ^ 2) = 0 ∧ measureColumnChecked E c = none) := by
  have hpos : ∀ c : Fin 5 → ℝ, 0 < E.sqrt (c 0 ^ 2 + c 1 ^ 2) ↔ ¬ (c 0 = 0 ∧ c 1 = 0) :=
    fun c => by rw [hsqrt, Real.sqrt_pos]; exact sq_add_sq_pos_iff (c 0) (c 1)
  have hzero : ∀ c : Fin 5 → ℝ, E.sqrt (c 0 ^ 2 + c 1 ^ 2) = 0 ↔ (c 0 = 0 ∧ c 1 = 0) := by
    intro c
    constructor
    · intro h
      by_contra hn
      have := (hpos c).mpr hn
      linarith
    · rintro ⟨h0, h1⟩
      rw [h0, h1, hsqrt]
      norm_num
  have hnone : ∀ c : Fin 5 → ℝ, measureColumnChecked E c = none ↔ (c 0 = 0 ∧ c 1 = 0) :=
    fun c => (measureColumnChecked_eq_none E c).trans (hzero c)
  refine ⟨fun _ _ => rfl, fun c => ?_, hpos, fun c hc => ?_, ?_, fun c h0 h1 => ?_⟩
  · rw [measureColumn_eq]
    rfl
  · exact measureColumnChecked_of_ne E c (ne_of_gt ((hpos c).mpr hc))
  · constructor
    · intro h i hi
      exact h i ((hnone _).mpr hi)
    · intro h i hi
      exact h i ((hnone _).mp hi)
  · exact ⟨(hzero c).mpr ⟨h0, h1⟩, (hnone c).mpr ⟨h0, h1⟩⟩

/-- C20, at the sigma points `(0, 0, 1, 0, 0)` and `(3, 4, 1, 0, 0)`. -/
theorem C20_radar_denominator_witness :
    let E : Env ℝ := Env.mk Real.cos Real.sin Real.sqrt (fun y x => Complex.arg ⟨x, y⟩)
      Real.pi Real.pi_pos (fun M => M) (fun M => M) (fun M => M)
    E.sqrt = Real.sqrt ∧
    measureColumnChecked E ![0, 0, 1, 0, 0] = none ∧
    measureColumnChecked E ![3, 4, 1, 0, 0] = some (measureColumn E ![3, 4, 1, 0, 0]) := by
  intro E
  have h := C20_radar_denominator E (UKF.construct UKF.blank) rfl
  refine ⟨rfl, (h.2.2.2.2.2 ![0, 0, 1, 0, 0] rfl rfl).2, h.2.2.2.1 ![3, 4, 1, 0, 0] ?_⟩
  rintro ⟨h0, -⟩
  have : (3 : ℝ) = 0 := h0
  norm_num at this

end Claims

end Ukf
